import Mathlib

/-!
Verification of the video-library repository's search and matching core.

Strings are modelled as `List Char`.  Python's `str.lower` is modelled by
`Char.toLower` on each character, `str.strip`/`str.split()` by trimming and
splitting on whitespace characters; for the ASCII data handled by this
repository these agree with Python exactly.

Rational scores.  Python computes scores in floating point; they are
modelled here as exact rationals (for the score values that occur in this
development the two agree).  The standard `Rat` operations of this
toolchain are marked irreducible, which blocks `decide`-evaluation, so the
embedding computes through `mkRat`-based shadow operations `qAdd`, `qMul`,
`qDiv`, `qMax`, `qMin`; each is proved equal to the corresponding standard
operation (`qAdd_eq` etc.), so the definitions below mean exactly ordinary
rational arithmetic.

The similarity primitive of the repository is `difflib.SequenceMatcher`
(created with `isjunk=None`, `autojunk=True`).  It is embedded faithfully:
`b2j` drops "popular" elements exactly as difflib's autojunk does (only
when the second string has length at least 200), `firstPass` is the
dynamic-programming scan of `find_longest_match`, and `extBack`/`extFwd`
are its two non-junk extension loops.  Since `isjunk=None` the junk set
`bjunk` is empty, hence the two junk-extension loops of difflib can never
extend anything and are omitted; the `not isbjunk(...)` conjuncts of the
first two loops are identically true and likewise dropped.  `seqRatio` is
`SequenceMatcher.ratio()`: 2*M/T (and 1.0 when T = 0, difflib's
`_calculate_ratio`), where M is the total size of the matching blocks
found by the recursive decomposition of `get_matching_blocks` (sorting
and merging adjacent blocks there does not change the total size, so only
the size sum is modelled).  Recursion is fuel-based so that everything
evaluates by `decide`; the supplied fuel is always sufficient for the
ranges that occur.
-/

namespace VideoLib

/-! ## Kernel-reducible rational arithmetic -/

/-- reducible shadow of rational addition. -/
def qAdd (a b : ℚ) : ℚ := mkRat (a.num * b.den + b.num * a.den) (a.den * b.den)

/-- reducible shadow of rational multiplication. -/
def qMul (a b : ℚ) : ℚ := mkRat (a.num * b.num) (a.den * b.den)

/-- reducible shadow of rational division (0 on division by 0, as in ℚ). -/
def qDiv (a b : ℚ) : ℚ := Rat.divInt (a.num * b.den) (a.den * b.num)

/-- Python `max(s, t)` (returns the first argument on ties). -/
def qMax (s t : ℚ) : ℚ := if t ≤ s then s else t

/-- Python `min(s, t)` (returns the first argument on ties). -/
def qMin (s t : ℚ) : ℚ := if s ≤ t then s else t

theorem qAdd_eq (a b : ℚ) : qAdd a b = a + b := (Rat.add_def' a b).symm

theorem qMul_eq (a b : ℚ) : qMul a b = a * b := by rw [qMul, Rat.mul_eq_mkRat]

theorem qDiv_eq (a b : ℚ) : qDiv a b = a / b := (Rat.div_def' a b).symm

theorem qMax_eq (s t : ℚ) : qMax s t = max s t := by rw [qMax, max_comm, max_def]

theorem qMin_eq (s t : ℚ) : qMin s t = min s t := by rw [qMin, min_def]

theorem mkRat_as_div (n : Int) (d : Nat) : mkRat n d = (n : ℚ) / (d : ℚ) := by
  rw [Rat.mkRat_eq_divInt, Rat.divInt_eq_div]
  norm_num

/-! ## String primitives -/

/-- Python `str.lower()` (per-character lowering). -/
def lowerL (s : List Char) : List Char := s.map Char.toLower

/-- whitespace test used by Python `str.strip()` / `str.split()`. -/
def isPySpace (c : Char) : Bool := c.isWhitespace

/-- Python `str.strip()`: trim whitespace from both ends. -/
def stripL (s : List Char) : List Char :=
  ((s.dropWhile isPySpace).reverse.dropWhile isPySpace).reverse

/-- helper for `splitWs`, with fuel bounded by the string length. -/
def splitWsF : Nat → List Char → List (List Char)
  | 0, _ => []
  | fuel + 1, s =>
    let s' := s.dropWhile isPySpace
    match s' with
    | [] => []
    | _ :: _ =>
        s'.takeWhile (fun c => !isPySpace c) ::
          splitWsF fuel (s'.dropWhile (fun c => !isPySpace c))

/-- Python `str.split()` with no arguments: split on whitespace runs,
dropping empty pieces. -/
def splitWs (s : List Char) : List (List Char) := splitWsF s.length s

/-- Python `needle in hay` on strings (substring containment; the empty
string is contained in everything). -/
def pyIn (needle : List Char) : List Char → Bool
  | [] => needle.isEmpty
  | c :: t => needle.isPrefixOf (c :: t) || pyIn needle t

/-- Python `a > b` on strings: lexicographic order on code points. -/
def lexGt : List Char → List Char → Bool
  | [], _ => false
  | _ :: _, [] => true
  | a :: as, b :: bs =>
    if a.toNat > b.toNat then true
    else if a.toNat < b.toNat then false
    else lexGt as bs

/-! ## difflib.SequenceMatcher -/

/-- the ascending list of positions of character `c` in `b`
(difflib's `b2j[c]` before junk removal). -/
def charPositions (c : Char) (b : List Char) : List Nat :=
  (List.range b.length).filter (fun j => decide (b.get? j = some c))

/-- difflib autojunk: an element is "popular" (and removed from `b2j`)
iff `len(b) >= 200` and it occurs more than `len(b) // 100 + 1` times. -/
def isPopular (b : List Char) (c : Char) : Bool :=
  decide (200 ≤ b.length) && decide (b.length / 100 + 1 < (charPositions c b).length)

/-- difflib's `b2j` lookup (with `isjunk=None`, so only autojunk pruning). -/
def b2j (b : List Char) (c : Char) : List Nat :=
  if isPopular b c then [] else charPositions c b

/-- a candidate best block `(besti, bestj, bestsize)`. -/
structure Best where
  bi : Nat
  bj : Nat
  bk : Nat
deriving DecidableEq, Repr

/-- state of the first pass of `find_longest_match`: the `j2len` map of the
previous row (total function, absent keys read as 0 like `dict.get(j-1,0)`)
and the best block so far. -/
structure FP where
  j2len : Nat → Nat
  best : Best

/-- chain length `k = j2len.get(j-1, 0) + 1` for a match at column `j`
(in Python `j-1` is `-1` when `j = 0`, which is never a key). -/
def kOf (j2l : Nat → Nat) (j : Nat) : Nat :=
  (if j = 0 then 0 else j2l (j - 1)) + 1

/-- best-block update for one candidate column of row `i`:
`if k > bestsize: best = (i-k+1, j-k+1, k)`. -/
def bestUpd (i : Nat) (j2l : Nat → Nat) (bst : Best) (j : Nat) : Best :=
  let k := kOf j2l j
  if bst.bk < k then ⟨i + 1 - k, j + 1 - k, k⟩ else bst

/-- the candidate columns of row `i` for character `c`: positions of `c`
in `b` clipped to `[blo, bhi)` (`continue` below `blo`, `break` at `bhi`;
the position list is ascending so both equal a filter). -/
def rowCands (b : List Char) (c : Char) (blo bhi : Nat) : List Nat :=
  (b2j b c).filter (fun j => decide (blo ≤ j) && decide (j < bhi))

/-- one row `i` of the first pass of `find_longest_match`. -/
def rowStep (b : List Char) (blo bhi : Nat) (st : FP) (i : Nat) (c : Char) : FP :=
  let js := rowCands b c blo bhi
  { j2len := fun j => if j ∈ js then kOf st.j2len j else 0
    best := js.foldl (bestUpd i st.j2len) st.best }

/-- rows `i, i+1, ...` of the first pass (`fuel` many). -/
def fpGo (a b : List Char) (blo bhi : Nat) : Nat → Nat → FP → FP
  | 0, _, st => st
  | fuel + 1, i, st => fpGo a b blo bhi fuel (i + 1) (rowStep b blo bhi st i (a.getD i ' '))

/-- the whole first pass of `find_longest_match` over rows `[alo, ahi)`,
starting from `besti, bestj, bestsize = alo, blo, 0` and an empty `j2len`. -/
def firstPass (a b : List Char) (alo ahi blo bhi : Nat) : FP :=
  fpGo a b blo bhi (ahi - alo) alo ⟨fun _ => 0, ⟨alo, blo, 0⟩⟩

/-- backward extension loop of `find_longest_match` (the junk test is
vacuous since `bjunk` is empty); fuel `bst.bi` always suffices. -/
def extBack (a b : List Char) (alo blo : Nat) : Nat → Best → Best
  | 0, bst => bst
  | fuel + 1, bst =>
    if alo < bst.bi ∧ blo < bst.bj ∧ a.getD (bst.bi - 1) ' ' = b.getD (bst.bj - 1) ' ' then
      extBack a b alo blo fuel ⟨bst.bi - 1, bst.bj - 1, bst.bk + 1⟩
    else bst

/-- forward extension loop of `find_longest_match`; fuel `ahi` suffices. -/
def extFwd (a b : List Char) (ahi bhi : Nat) : Nat → Best → Best
  | 0, bst => bst
  | fuel + 1, bst =>
    if bst.bi + bst.bk < ahi ∧ bst.bj + bst.bk < bhi ∧
        a.getD (bst.bi + bst.bk) ' ' = b.getD (bst.bj + bst.bk) ' ' then
      extFwd a b ahi bhi fuel ⟨bst.bi, bst.bj, bst.bk + 1⟩
    else bst

/-- `SequenceMatcher.find_longest_match(alo, ahi, blo, bhi)`. -/
def findLongest (a b : List Char) (alo ahi blo bhi : Nat) : Best :=
  let st := firstPass a b alo ahi blo bhi
  extFwd a b ahi bhi ahi (extBack a b alo blo st.best.bi st.best)

/-- total size of the matching blocks of `get_matching_blocks` restricted
to the range `[alo,ahi) x [blo,bhi)` (the recursive decomposition; block
order and adjacent-block merging do not affect the size total). -/
def matchSumF (a b : List Char) : Nat → Nat → Nat → Nat → Nat → Nat
  | 0, _, _, _, _ => 0
  | fuel + 1, alo, ahi, blo, bhi =>
    let m := findLongest a b alo ahi blo bhi
    if m.bk = 0 then 0
    else
      m.bk
        + (if alo < m.bi ∧ blo < m.bj then matchSumF a b fuel alo m.bi blo m.bj else 0)
        + (if m.bi + m.bk < ahi ∧ m.bj + m.bk < bhi then
            matchSumF a b fuel (m.bi + m.bk) ahi (m.bj + m.bk) bhi
          else 0)

/-- `M`: total number of matched elements between `a` and `b`. -/
def seqMatches (a b : List Char) : Nat :=
  matchSumF a b (a.length + b.length + 1) 0 a.length 0 b.length

/-- `SequenceMatcher(None, a, b).ratio()` as an exact rational:
`2*M/T`, and `1.0` when both strings are empty (difflib's
`_calculate_ratio`). -/
def seqRatio (a b : List Char) : ℚ :=
  if a.length + b.length = 0 then 1
  else mkRat (2 * seqMatches a b) (a.length + b.length)

/-- the value of `seqRatio` written with ordinary rational division. -/
theorem seqRatio_eq (a b : List Char) :
    seqRatio a b =
      if a.length + b.length = 0 then 1
      else 2 * (seqMatches a b : ℚ) / ((a.length : ℚ) + (b.length : ℚ)) := by
  rw [seqRatio]
  split
  · rfl
  · rw [mkRat_as_div]
    push_cast
    ring_nf

/-! sanity checks of the embedding against CPython difflib outputs -/

example : seqRatio
    ['c','a','r','d','i','o','l','o','g','i','e']
    ['c','a','r','d','i','o','l','o','g','y'] = mkRat 6 7 := by decide

example : seqRatio ['a','b','c','d'] ['a','b','c','x'] = mkRat 3 4 := by decide

example : seqRatio ['a','b'] ['b','a','c','b'] = mkRat 2 3 := by decide

example : seqRatio ['b','a','c','b'] ['a','b'] = mkRat 1 3 := by decide

example : seqRatio ['z','z','z','z'] ['a','b','c','x'] = 0 := by decide

example : seqRatio [] [] = 1 := by decide

example : seqRatio
    ['a','b','c','d',' ','z','z','z','z']
    ['a','b','c','x',' ','a','b','c','x',' ','a','b','c','x'] = mkRat 8 23 := by decide

/-! ## video_library_app.py: text helpers -/

/-- helper for `stripTags`: one scan step, fuel bounded by length. -/
def stripTagsF : Nat → List Char → List Char
  | 0, _ => []
  | _, [] => []
  | fuel + 1, c :: rest =>
    if c = '<' then
      let mid := rest.takeWhile (fun d => d ≠ '>')
      let rem := rest.dropWhile (fun d => d ≠ '>')
      match rem with
      | [] => c :: stripTagsF fuel rest
      | _ :: tail =>
        if mid ≠ [] then ' ' :: stripTagsF fuel tail else c :: stripTagsF fuel rest
    else c :: stripTagsF fuel rest

/-- Python `re.sub(r'<[^>]+>', ' ', html)`: replace every maximal
`<...>` group (with at least one interior character, which cannot
contain `>`) by a single space, scanning left to right. -/
def stripTags (s : List Char) : List Char := stripTagsF s.length s

/-- helper for `replaceAll` with fuel bounded by length (the patterns used
in this development are all nonempty, so the fuel suffices). -/
def replaceAllF : Nat → List Char → List Char → List Char → List Char
  | 0, _, _, _ => []
  | fuel + 1, pat, rep, s =>
    if pat.isPrefixOf s ∧ pat ≠ [] then rep ++ replaceAllF fuel pat rep (s.drop pat.length)
    else
      match s with
      | [] => []
      | c :: t => c :: replaceAllF fuel pat rep t

/-- Python `s.replace(pat, rep)`: replace all non-overlapping occurrences,
left to right. -/
def replaceAll (pat rep s : List Char) : List Char := replaceAllF s.length pat rep s

/-- `' '.join(pieces)`. -/
def joinSpace : List (List Char) → List Char
  | [] => []
  | [w] => w
  | w :: ws => w ++ ' ' :: joinSpace ws

/-- `extract_text_from_html` of video_library_app.py: strip HTML tags,
decode the four handled entities, and normalize whitespace. -/
def extract_text_from_html (html : List Char) : List Char :=
  if html = [] then []
  else
    let text := stripTags html
    let text := replaceAll ['&','n','b','s','p',';'] [' '] text
    let text := replaceAll ['&','a','m','p',';'] ['&'] text
    let text := replaceAll ['&','l','t',';'] ['<'] text
    let text := replaceAll ['&','g','t',';'] ['>'] text
    joinSpace (splitWs text)

/-! ## video_library_app.py: the similarity primitive and word matching -/

/-- `fuzzy_match_ratio(str1, str2)` of video_library_app.py:
`SequenceMatcher(None, str1.lower(), str2.lower()).ratio()`.
Note there is no empty-input guard here. -/
def fuzzy_match_ratio (str1 str2 : List Char) : ℚ :=
  seqRatio (lowerL str1) (lowerL str2)

/-- `fuzzy_match_word(search_word, target_word)` (default `min_length=3`):
words shorter than 3 characters compare by containment only; equal words
score 1.0; containment either way scores 0.9; otherwise the similarity
ratio is accepted at threshold 0.6 (length at least 5) or 0.5. -/
def fuzzy_match_word (sw tw : List Char) : Bool × ℚ :=
  if sw.length < 3 ∨ tw.length < 3 then
    (pyIn sw tw, if pyIn sw tw then 1 else 0)
  else if sw = tw then (true, 1)
  else if pyIn sw tw || pyIn tw sw then (true, mkRat 9 10)
  else
    let r := fuzzy_match_ratio sw tw
    let thr : ℚ := if 5 ≤ sw.length then mkRat 6 10 else mkRat 1 2
    if thr ≤ r then (true, r) else (false, 0)

/-! ## video_library_app.py: fuzzy_search_videos -/

/-- a video record as consumed by the search core.  `description` is the
plain string the code obtains as `video.get('description','') or ''`
(absent or null descriptions are the empty string); the media-locator
display fields do not influence search and are omitted. -/
structure Video where
  content_id : Nat
  title : List Char
  description : List Char
  space_name : List Char
  created_at : List Char
deriving DecidableEq, Repr

/-- the `match_type` strings produced by `fuzzy_search_videos`. -/
inductive MatchType where
  | exact_title
  | phrase_title
  | fuzzy_title
  | fuzzy_word_title
  | exact_description
  | phrase_description
  | fuzzy_description
  | part_match
deriving DecidableEq, Repr

/-- one `(video, score, match_type)` result tuple of `fuzzy_search_videos`. -/
structure Hit where
  video : Video
  score : ℚ
  mtype : Option MatchType
deriving DecidableEq, Repr

/-- generic stable insertion into a descending-sorted list: `x` is placed
before the first element it strictly beats, hence after all ties. -/
def insBy (gt : α → α → Bool) (x : α) : List α → List α
  | [] => [x]
  | y :: ys => if gt x y then x :: y :: ys else y :: insBy gt x ys

/-- stable descending sort (model of Python `list.sort(key=..,
reverse=True)`: equal keys keep their original order). -/
def pySort (gt : α → α → Bool) (l : List α) : List α :=
  l.foldl (fun acc x => insBy gt x acc) []

/-- strict comparison of `(score, created_at)` sort keys,
ties broken by descending `created_at` (Python string comparison). -/
def hitKeyGt (x y : Hit) : Bool :=
  decide (y.score < x.score) ||
    (decide (x.score = y.score) && lexGt x.video.created_at y.video.created_at)

/-- stages 1-4 of the per-video scoring of `fuzzy_search_videos` (the
`if`/`elif` chain on the title): exact substring, phrase match, fuzzy
whole-title match plus fuzzy single-word match. -/
def titleStage (thr : ℚ) (searchL : List Char) (searchWords : List (List Char))
    (titleL : List Char) : ℚ × Option MatchType :=
  if pyIn searchL titleL then (1, some .exact_title)
  else if searchWords ≠ [] ∧
      searchWords.all (fun sw => (splitWs titleL).any (fun tw => (fuzzy_match_word sw tw).1)) then
    let wordScores := searchWords.map
      (fun sw => (splitWs titleL).foldl (fun best tw => qMax best (fuzzy_match_word sw tw).2) 0)
    let avg := if wordScores ≠ [] then qDiv (wordScores.foldl qAdd 0) (mkRat wordScores.length 1)
      else 0
    (qMax 0 (qMin (qMul avg (mkRat 95 100)) 1), some .phrase_title)
  else if 3 ≤ searchL.length then
    let tr := fuzzy_match_ratio searchL titleL
    let s1 : ℚ × Option MatchType :=
      if thr ≤ tr then (qMax 0 (qMul tr (mkRat 85 100)), some .fuzzy_title) else (0, none)
    match ((splitWs titleL).filter (fun w => 3 ≤ w.length)).find?
        (fun w => (fuzzy_match_word searchL w).1) with
    | some w => (qMax s1.1 (qMul (fuzzy_match_word searchL w).2 (mkRat 75 100)),
        some .fuzzy_word_title)
    | none => s1
  else (0, none)

/-- stage 5 of the per-video scoring (description fallback), entered only
while the running score is below 0.6. -/
def descStage (thr : ℚ) (searchL : List Char) (searchWords : List (List Char))
    (descL : List Char) (cur : ℚ × Option MatchType) : ℚ × Option MatchType :=
  if cur.1 < mkRat 6 10 then
    if pyIn searchL descL then (qMax cur.1 (mkRat 65 100), some .exact_description)
    else if searchWords ≠ [] ∧
        searchWords.all (fun sw =>
          ((splitWs descL).take 50).any (fun tw => (fuzzy_match_word sw tw).1)) then
      (qMax cur.1 (mkRat 55 100), some .phrase_description)
    else if 3 ≤ searchL.length then
      let dr := fuzzy_match_ratio searchL (descL.take 300)
      if thr ≤ dr then (qMax cur.1 (qMul dr (mkRat 45 100)), some .fuzzy_description) else cur
    else cur
  else cur

/-- `title_matches` of stage 6: the number of (query word, title word)
pairs that fuzzily match; one query word matching several title words is
counted several times. -/
def titlePairs (searchWords : List (List Char)) (titleL : List Char) : Nat :=
  (searchWords.map
    (fun sw => ((splitWs titleL).filter (fun tw => (fuzzy_match_word sw tw).1)).length)).sum

/-- `desc_matches` of stage 6: the number of matching (query word,
description word) pairs over the first 30 description words. -/
def descPairs (searchWords : List (List Char)) (descL : List Char) : Nat :=
  (searchWords.map
    (fun sw =>
      (((splitWs descL).take 30).filter (fun tw => (fuzzy_match_word sw tw).1)).length)).sum

/-- stage 6 of the per-video scoring (the `partial` fallback), entered only
while the running score is below 0.4. -/
def partWordStage (searchWords : List (List Char))
    (titleL descL : List Char) (cur : ℚ × Option MatchType) : ℚ × Option MatchType :=
  if cur.1 < mkRat 4 10 ∧ searchWords ≠ [] then
    if 0 < titlePairs searchWords titleL + descPairs searchWords descL then
      (qMax cur.1 (qMul (qDiv (mkRat (titlePairs searchWords titleL +
          descPairs searchWords descL) 1)
        (mkRat searchWords.length 1)) (mkRat 35 100)),
        some .part_match)
    else cur
  else cur

/-- the whole per-video scoring of `fuzzy_search_videos`. -/
def scoreVideo (thr : ℚ) (searchL : List Char) (searchWords : List (List Char))
    (v : Video) : ℚ × Option MatchType :=
  let titleL := lowerL v.title
  let descL := lowerL (extract_text_from_html v.description)
  partWordStage searchWords titleL descL
    (descStage thr searchL searchWords descL (titleStage thr searchL searchWords titleL))

/-- the adaptive threshold of `fuzzy_search_videos`: 0.4 for queries
shorter than 4 characters, 0.6 for queries of 10 or more, otherwise the
caller-supplied value. -/
def adaptThr (searchL : List Char) (threshold : ℚ) : ℚ :=
  if searchL.length < 4 then mkRat 4 10
  else if 10 ≤ searchL.length then mkRat 6 10
  else threshold

/-- `fuzzy_search_videos(videos, search_term, threshold=0.5)` of
video_library_app.py: score every video, keep positive scores, and sort by
`(score, created_at)` descending (stable). -/
def fuzzy_search_videos (videos : List Video) (search_term : List Char)
    (threshold : ℚ := mkRat 1 2) : List Hit :=
  let searchL := stripL (lowerL search_term)
  let searchWords := (splitWs searchL).filter (fun w => 2 ≤ w.length)
  let thr := adaptThr searchL threshold
  let results := videos.filterMap (fun v =>
    let sm := scoreVideo thr searchL searchWords v
    if 0 < sm.1 then some (⟨v, sm.1, sm.2⟩ : Hit) else none)
  pySort hitKeyGt results

/-! sanity checks of the search engine against the Python behaviour -/

def pedVideo : Video :=
  ⟨1, ['P','e','d','i','a','t','r','i','c',' ','C','a','r','d','i','o','l','o','g','y',
       ' ','B','a','s','i','c','s'], [], [], []⟩

example : fuzzy_search_videos [pedVideo] ['C','a','r','d','i','o','l','o','g','y']
    = [⟨pedVideo, 1, some .exact_title⟩] := by decide

example : fuzzy_search_videos [pedVideo] ['C','a','r','d','i','o','l','o','g','i','e']
    = [⟨pedVideo, mkRat 57 70, some .phrase_title⟩] := by decide

def abcxVideo : Video :=
  ⟨2, ['a','b','c','x',' ','a','b','c','x',' ','a','b','c','x'], [], [], []⟩

example : fuzzy_search_videos [abcxVideo] ['a','b','c','d',' ','z','z','z','z']
    = [⟨abcxVideo, mkRat 21 40, some .part_match⟩] := by decide

example : fuzzy_search_videos [pedVideo] [] = [⟨pedVideo, 1, some .exact_title⟩] := by decide

example : fuzzy_search_videos [⟨3, ['x','y','z'], [], [], []⟩] ['q'] = [] := by decide

/-! ## video_library_app.py: API endpoints (pagination plumbing) -/

/-- Python list slicing `l[start:stop]` with full negative-index and
clipping semantics. -/
def pySlice (l : List α) (start stop : Int) : List α :=
  let n : Int := l.length
  let s := if start < 0 then max (n + start) 0 else min start n
  let e := if stop < 0 then max (n + stop) 0 else min stop n
  (l.drop s.toNat).take (e - s).toNat

/-- floor of a rational (kernel-reducible; the numerator is nonnegative
for every value this is applied to, and integer division of a nonnegative
numerator by the positive denominator is the floor). -/
def qFloor (x : ℚ) : Int := x.num / x.den

/-- reducible shadow of rational subtraction. -/
def qSub (a b : ℚ) : ℚ := mkRat (a.num * b.den - b.num * a.den) (a.den * b.den)

theorem qSub_eq (a b : ℚ) : qSub a b = a - b := (Rat.sub_def' a b).symm

theorem qFloor_eq (x : ℚ) : qFloor x = Int.floor x := Rat.floor_def.symm

/-- Python `round(x, 3)` modelled as exact round-half-to-even on
rationals (Python rounds an IEEE double; the two agree for the score
values arising in this development). -/
def round3 (x : ℚ) : ℚ :=
  let y := qMul x (mkRat 1000 1)
  let f := qFloor y
  let r := qSub y (mkRat f 1)
  let n := if r < mkRat 1 2 then f
    else if mkRat 1 2 < r then f + 1
    else if f % 2 = 0 then f else f + 1
  mkRat n 1000

/-- the `match_type` tag attached to formatted response entries of
`/api/search`: primary hits are tagged `metadata`, auxiliary-store hits
`timestop`. -/
inductive MatchTag where
  | metadata
  | timestop
deriving DecidableEq, Repr

/-- a formatted response entry of `/api/search`; the display-only fields
(title, description, urls, truncated dates) are pass-through data and are
omitted. -/
structure RespVideo where
  id : Nat
  score : ℚ
  tag : MatchTag
deriving DecidableEq, Repr

/-- the `pagination` object of the JSON responses. -/
structure Pagination where
  page : Int
  per_page : Int
  total : Nat
  total_pages : Int
deriving DecidableEq, Repr

/-- the `/api/search` JSON response (the `search_engine` tag and the
attached `relevant_timestops` display lists are omitted; the latter do not
affect ordering, pagination or totals). -/
structure SearchResp where
  videos : List RespVideo
  pagination : Pagination
  timestop_matches : Nat
deriving DecidableEq, Repr

/-- the `timestop_videos` dict lookup: videos of the loaded collection
whose id is in the combined timestop/transcription id set; iterating the
collection means the last record with a given id wins. -/
def timestopLookup (all_videos : List Video) (matching : List Nat) (vid : Nat) : Option Video :=
  if vid ∈ matching then (all_videos.filter (fun v => decide (v.content_id = vid))).getLast?
  else none

/-- the formatted page of primary fuzzy hits (score rounded to three
decimals, tagged `metadata`). -/
def fmtPrimary (fz : List Hit) (start stop : Int) : List RespVideo :=
  (pySlice fz start stop).map (fun h => ⟨h.video.content_id, round3 h.score, .metadata⟩)

/-- the appended timestop hits: ids from the timestop search (only; the
transcription ids feed the lookup dict but are not themselves appended)
that are absent from the formatted primary ids and present in the loaded
collection, each with score 0.5 and tag `timestop`. -/
def timestopExtras (all_videos : List Video) (ts tr ids : List Nat) : List RespVideo :=
  ts.filterMap (fun vid =>
    if vid ∉ ids ∧ (timestopLookup all_videos (ts ++ tr) vid).isSome then
      some ⟨vid, mkRat 1 2, .timestop⟩
    else none)

/-- descending comparison by response score (`key=lambda x: x['score']`). -/
def respGt (x y : RespVideo) : Bool := decide (y.score < x.score)

/-- `search_all_videos` (`/api/search`) of video_library_app.py on its
fuzzy fallback path (no Elasticsearch client), parameterized by the id
lists returned by `search_timestops_in_database` and
`search_transcriptions_in_database`.  Mirrors the code: empty-query guard;
fuzzy search; pagination of the fuzzy hits; formatting with score rounding
and tag `metadata`; appending of timestop hits absent from the paginated
ids; stable re-sort by score; re-pagination.  For the empty query Python
returns a response without a `timestop_matches` key; it is modelled as 0. -/
def search_all_videos_fuzzy (all_videos : List Video) (search : List Char)
    (page per_page : Int) (timestop_video_ids transcription_video_ids : List Nat) : SearchResp :=
  if search = [] then ⟨[], ⟨1, per_page, 0, 0⟩, 0⟩
  else
    let fuzzyResults := fuzzy_search_videos all_videos search (mkRat 1 2)
    let start := (page - 1) * per_page
    let primary := fmtPrimary fuzzyResults start (start + per_page)
    let extras := timestopExtras all_videos timestop_video_ids transcription_video_ids
      (primary.map (fun r => r.id))
    let merged := pySort respGt (primary ++ extras)
    let total := merged.length
    ⟨pySlice merged start (start + per_page),
      ⟨page, per_page, total, Int.fdiv ((total : Int) + per_page - 1) per_page⟩,
      timestop_video_ids.length⟩

/-- the `/api/spaces/<name>/videos` JSON response (formatted display
fields omitted; `videos` carries the records of the returned page). -/
structure SpaceResp where
  videos : List Video
  page : Int
  per_page : Int
  total : Nat
  total_pages : Int
deriving DecidableEq, Repr

/-- `get_space_videos` of video_library_app.py for an existing space,
given the space's video list: optional substring filter on
title/description, stable sort by `created_at` descending, pagination. -/
def get_space_videos (videos : List Video) (page per_page : Int)
    (search : List Char) : SpaceResp :=
  let filtered := if search ≠ [] then
      videos.filter (fun v =>
        pyIn (lowerL search) (lowerL v.title) || pyIn (lowerL search) (lowerL v.description))
    else videos
  let sortedV := pySort (fun x y => lexGt x.created_at y.created_at) filtered
  let total := sortedV.length
  let start := (page - 1) * per_page
  ⟨pySlice sortedV start (start + per_page), page, per_page, total,
    Int.fdiv ((total : Int) + per_page - 1) per_page⟩

/-! ## categorize_youtube_videos.py and merge_aws_youtube_videos.py -/

/-- `normalize_title` (identical in both scripts): lower-case, strip, drop
the brand suffixes " - staycurrentmd" and " | staycurrentmd". -/
def normalize_title (title : List Char) : List Char :=
  if title = [] then []
  else
    let t := stripL (lowerL title)
    let t := replaceAll
      [' ','-',' ','s','t','a','y','c','u','r','r','e','n','t','m','d'] [] t
    replaceAll [' ','|',' ','s','t','a','y','c','u','r','r','e','n','t','m','d'] [] t

/-- `similarity_score` (identical in both scripts): 0.0 if either input is
empty, otherwise the SequenceMatcher ratio of the lower-cased stripped
inputs. -/
def similarity_score (str1 str2 : List Char) : ℚ :=
  if str1 = [] ∨ str2 = [] then 0
  else seqRatio (stripL (lowerL str1)) (stripL (lowerL str2))

/-- one value of the `matches` dict of `match_videos`. -/
structure MatchEntry where
  space_name : List Char
  match_score : ℚ
  youtube_title : List Char
  aws_title : List Char
deriving DecidableEq, Repr

/-- Python dict assignment `d[k] = v` on an insertion-ordered association
list: update in place if the key is present, else append. -/
def dictInsert : List (Nat × MatchEntry) → Nat → MatchEntry → List (Nat × MatchEntry)
  | [], k, v => [(k, v)]
  | (k', v') :: t, k, v => if k' = k then (k, v) :: t else (k', v') :: dictInsert t k v

/-- one step of the inner loop of `match_videos` over the AWS videos:
update `(best_match, best_score, best_space)` when
`title_score > best_score and title_score > 0.85`. -/
def bestAwsStep (ytn : List Char) (acc : Option Video × ℚ × List Char) (a : Video) :
    Option Video × ℚ × List Char :=
  let sc := similarity_score ytn (normalize_title a.title)
  if acc.2.1 < sc ∧ mkRat 85 100 < sc then (some a, sc, a.space_name) else acc

/-- the inner loop of `match_videos`, starting from
`best_match, best_score, best_space = None, 0.0, None`. -/
def bestAws (ytn : List Char) (aws : List Video) : Option Video × ℚ × List Char :=
  aws.foldl (bestAwsStep ytn) (none, 0, [])

/-- one step of the outer loop of `match_videos`: record a match only
`if best_match and best_space` (an empty `space_name` is falsy), else
append to the unmatched list. -/
def matchStep (aws_videos : List Video) (acc : List (Nat × MatchEntry) × List Video)
    (y : Video) : List (Nat × MatchEntry) × List Video :=
  let yn := normalize_title y.title
  let best := bestAws yn aws_videos
  match best.1 with
  | some am =>
    if best.2.2 ≠ [] then
      (dictInsert acc.1 y.content_id ⟨best.2.2, best.2.1, y.title, am.title⟩, acc.2)
    else (acc.1, acc.2 ++ [y])
  | none => (acc.1, acc.2 ++ [y])

/-- `match_videos(youtube_videos, aws_videos)` of
categorize_youtube_videos.py.  The unused `yt_desc` variable of the
source is not modelled. -/
def match_videos (youtube_videos aws_videos : List Video) :
    List (Nat × MatchEntry) × List Video :=
  youtube_videos.foldl (matchStep aws_videos) ([], [])

/-- the record of `match_videos`'s per-video decision: it matches exactly
when the retained best candidate exists and its space name is nonempty. -/
def matchedOkB (aws : List Video) (y : Video) : Bool :=
  (bestAws (normalize_title y.title) aws).1.isSome &&
    decide ((bestAws (normalize_title y.title) aws).2.2 ≠ [])

/-- `find_unmatched_aws_videos(aws_videos, youtube_videos)` of
merge_aws_youtube_videos.py: an AWS video is unmatched iff no YouTube
video has `similarity_score(aws_title, yt_title) > 0.85` (the inner loop
with its `break` is an existence test). -/
def find_unmatched_aws_videos (aws_videos youtube_videos : List Video) : List Video :=
  aws_videos.foldl (fun um a =>
    if youtube_videos.any (fun y =>
        decide (mkRat 85 100 <
          similarity_score (normalize_title a.title) (normalize_title y.title))) then um
    else um ++ [a]) []

/-! sanity checks of the endpoints and matcher scripts -/

def ytVid : Video := ⟨1, ['a','b','c','d','e','f','g','h','i','j'], [], [], []⟩

def awsEmptySpace : Video := ⟨21, ['a','b','c','d','e','f','g','h','i','j'], [], [], []⟩

def awsXSpace : Video := ⟨22, ['a','b','c','d','e','f','g','h','i','x'], [], ['X'], []⟩

example : match_videos [ytVid] [awsEmptySpace] = ([], [ytVid]) := by decide

example : match_videos [ytVid] [awsXSpace, awsEmptySpace] = ([], [ytVid]) := by decide

example : (match_videos [ytVid] [awsXSpace]).2 = [] := by decide

def awsUnrelated : Video := ⟨23, ['q','q','q','q'], [], ['Z'], []⟩

example : find_unmatched_aws_videos [awsXSpace, awsUnrelated] [ytVid] = [awsUnrelated] := by
  decide

example :
    get_space_videos [⟨5, ['t'], [], [], []⟩] 0 24 [] =
      ⟨[], 0, 24, 1, 1⟩ := by decide

def vA : Video := ⟨11, ['a','b',' ','o','n','e'], [], [], ['2']⟩

def vB : Video := ⟨12, ['a','b',' ','t','w','o'], [], [], ['1']⟩

example :
    search_all_videos_fuzzy [vA, vB] ['a','b'] 1 1 [] [] =
      ⟨[⟨11, 1, .metadata⟩], ⟨1, 1, 1, 1⟩, 0⟩ := by decide

example :
    search_all_videos_fuzzy [⟨7, ['x','y','z'], [], [], []⟩] ['q'] 1 24 [] [7] =
      ⟨[], ⟨1, 24, 0, 0⟩, 0⟩ := by decide

example :
    search_all_videos_fuzzy [⟨7, ['x','y','z'], [], [], []⟩] ['q'] 1 24 [7] [] =
      ⟨[⟨7, mkRat 1 2, .timestop⟩], ⟨1, 24, 1, 1⟩, 1⟩ := by decide

/-! ## Generic lemmas about the stable sort -/

theorem length_insBy (gt : α → α → Bool) (x : α) (l : List α) :
    (insBy gt x l).length = l.length + 1 := by
  induction l with
  | nil => rfl
  | cons y ys ih =>
    rw [insBy]
    split
    · simp
    · simp [ih]

theorem mem_insBy (gt : α → α → Bool) (x a : α) (l : List α) :
    a ∈ insBy gt x l ↔ a = x ∨ a ∈ l := by
  induction l with
  | nil => simp [insBy]
  | cons y ys ih =>
    rw [insBy]
    split
    · simp only [List.mem_cons]
    · simp only [List.mem_cons, ih]
      tauto

theorem length_pySort (gt : α → α → Bool) (l : List α) :
    (pySort gt l).length = l.length := by
  suffices h : ∀ (l : List α) (acc : List α),
      (l.foldl (fun acc x => insBy gt x acc) acc).length = acc.length + l.length by
    simpa using h l []
  intro l
  induction l with
  | nil => simp
  | cons y ys ih =>
    intro acc
    simp only [List.foldl_cons, ih, length_insBy, List.length_cons]
    omega

theorem mem_pySort (gt : α → α → Bool) (a : α) (l : List α) :
    a ∈ pySort gt l ↔ a ∈ l := by
  suffices h : ∀ (l : List α) (acc : List α),
      (a ∈ l.foldl (fun acc x => insBy gt x acc) acc ↔ a ∈ acc ∨ a ∈ l) by
    simpa using h l []
  intro l
  induction l with
  | nil => simp
  | cons y ys ih =>
    intro acc
    simp only [List.foldl_cons, ih, mem_insBy, List.mem_cons]
    tauto

/-! ## Range bounds for find_longest_match, and seqRatio ≤ 1 -/

/-- the best-block fold of one row keeps the block inside the ranges. -/
theorem foldl_bestUpd_bounds (alo blo bhi i : Nat) (j2l : Nat → Nat)
    (hk : ∀ j, blo ≤ j → j < bhi →
      kOf j2l j + alo ≤ i + 1 ∧ kOf j2l j + blo ≤ j + 1) :
    ∀ (js : List Nat) (bst : Best), (∀ j ∈ js, blo ≤ j ∧ j < bhi) →
      alo ≤ bst.bi ∧ blo ≤ bst.bj ∧ bst.bi + bst.bk ≤ i + 1 ∧ bst.bj + bst.bk ≤ bhi →
      (alo ≤ (js.foldl (bestUpd i j2l) bst).bi ∧ blo ≤ (js.foldl (bestUpd i j2l) bst).bj ∧
        (js.foldl (bestUpd i j2l) bst).bi + (js.foldl (bestUpd i j2l) bst).bk ≤ i + 1 ∧
        (js.foldl (bestUpd i j2l) bst).bj + (js.foldl (bestUpd i j2l) bst).bk ≤ bhi) := by
  intro js
  induction js with
  | nil => intro bst _ h; simpa using h
  | cons j t ih =>
    intro bst hmem hb
    have hj := hmem j (List.mem_cons_self j t)
    have hkj := hk j hj.1 hj.2
    simp only [List.foldl_cons]
    refine ih (bestUpd i j2l bst j) (fun x hx => hmem x (List.mem_cons_of_mem j hx)) ?_
    rw [bestUpd]
    split
    · refine ⟨?_, ?_, ?_, ?_⟩ <;> dsimp only <;> omega
    · exact hb

/-- row invariant of the first pass: every stored chain length is bounded
by the number of processed rows and by its column offset. -/
def JBound (alo blo : Nat) (i : Nat) (j2l : Nat → Nat) : Prop :=
  ∀ x, j2l x ≠ 0 → j2l x + alo ≤ i ∧ j2l x + blo ≤ x + 1

theorem kOf_bounds {alo blo i : Nat} {j2l : Nat → Nat}
    (hJ : JBound alo blo i j2l) (hal : alo ≤ i) :
    ∀ j, blo ≤ j → j < bhi → kOf j2l j + alo ≤ i + 1 ∧ kOf j2l j + blo ≤ j + 1 := by
  intro j hbl _
  simp only [kOf]
  rcases Nat.eq_zero_or_pos (if j = 0 then 0 else j2l (j - 1)) with hz | hz
  · rw [hz]; omega
  · have hj0 : j ≠ 0 := by
      intro h
      subst h
      simp at hz
    rw [if_neg hj0] at hz ⊢
    have := hJ (j - 1) (by omega)
    omega

theorem rowStep_JBound (b : List Char) (alo blo bhi : Nat) (st : FP) (i : Nat) (c : Char)
    (hJ : JBound alo blo i st.j2len) (hal : alo ≤ i) :
    JBound alo blo (i + 1) (rowStep b blo bhi st i c).j2len := by
  intro x hx
  rw [rowStep] at hx ⊢
  simp only at hx ⊢
  by_cases hmem : x ∈ rowCands b c blo bhi
  · rw [if_pos hmem] at hx ⊢
    have hxb : blo ≤ x ∧ x < bhi := by
      have := List.of_mem_filter hmem
      simp only [Bool.and_eq_true, decide_eq_true_eq] at this
      exact this
    have := kOf_bounds hJ hal x hxb.1 hxb.2
    omega
  · rw [if_neg hmem] at hx
    exact absurd rfl hx

/-- bounds invariant carried through all rows of the first pass. -/
theorem fpGo_bounds (a b : List Char) (alo blo bhi : Nat) :
    ∀ (fuel i : Nat) (st : FP), alo ≤ i →
      JBound alo blo i st.j2len →
      (alo ≤ st.best.bi ∧ blo ≤ st.best.bj ∧ st.best.bi + st.best.bk ≤ i ∧
        st.best.bj + st.best.bk ≤ bhi) →
      (alo ≤ (fpGo a b blo bhi fuel i st).best.bi ∧
        blo ≤ (fpGo a b blo bhi fuel i st).best.bj ∧
        (fpGo a b blo bhi fuel i st).best.bi + (fpGo a b blo bhi fuel i st).best.bk ≤ i + fuel ∧
        (fpGo a b blo bhi fuel i st).best.bj + (fpGo a b blo bhi fuel i st).best.bk ≤ bhi) := by
  intro fuel
  induction fuel with
  | zero => intro i st _ _ h; rw [fpGo]; simpa using h
  | succ f ih =>
    intro i st hal hJ hb
    rw [fpGo]
    have hmem : ∀ j ∈ rowCands b (a.getD i ' ') blo bhi, blo ≤ j ∧ j < bhi := by
      intro j hj
      have := List.of_mem_filter hj
      simp only [Bool.and_eq_true, decide_eq_true_eq] at this
      exact this
    have hstep := foldl_bestUpd_bounds alo blo bhi i st.j2len
      (kOf_bounds hJ hal) (rowCands b (a.getD i ' ') blo bhi) st.best hmem
      ⟨hb.1, hb.2.1, by omega, hb.2.2.2⟩
    have hres := ih (i + 1) (rowStep b blo bhi st i (a.getD i ' ')) (by omega)
      (rowStep_JBound b alo blo bhi st i (a.getD i ' ') hJ hal)
      (by
        rw [rowStep]
        simp only
        exact hstep)
    refine ⟨hres.1, hres.2.1, by omega, hres.2.2.2⟩

theorem firstPass_bounds (a b : List Char) (alo ahi blo bhi : Nat)
    (h1 : alo ≤ ahi) (h2 : blo ≤ bhi) :
    alo ≤ (firstPass a b alo ahi blo bhi).best.bi ∧
      blo ≤ (firstPass a b alo ahi blo bhi).best.bj ∧
      (firstPass a b alo ahi blo bhi).best.bi + (firstPass a b alo ahi blo bhi).best.bk ≤ ahi ∧
      (firstPass a b alo ahi blo bhi).best.bj + (firstPass a b alo ahi blo bhi).best.bk ≤ bhi := by
  have := fpGo_bounds a b alo blo bhi (ahi - alo) alo ⟨fun _ => 0, ⟨alo, blo, 0⟩⟩
    (le_refl alo) (fun x hx => absurd rfl hx) (by simp [h2])
  rw [firstPass]
  refine ⟨this.1, this.2.1, by omega, this.2.2.2⟩

theorem extBack_bounds (a b : List Char) (alo blo : Nat) :
    ∀ (fuel : Nat) (bst : Best),
      alo ≤ bst.bi → blo ≤ bst.bj →
      (alo ≤ (extBack a b alo blo fuel bst).bi ∧ blo ≤ (extBack a b alo blo fuel bst).bj ∧
        (extBack a b alo blo fuel bst).bi + (extBack a b alo blo fuel bst).bk
          = bst.bi + bst.bk ∧
        (extBack a b alo blo fuel bst).bj + (extBack a b alo blo fuel bst).bk
          = bst.bj + bst.bk) := by
  intro fuel
  induction fuel with
  | zero => intro bst h1 h2; rw [extBack]; exact ⟨h1, h2, rfl, rfl⟩
  | succ f ih =>
    intro bst h1 h2
    rw [extBack]
    split
    · next hcond =>
      obtain ⟨hc1, hc2, -⟩ := hcond
      have := ih ⟨bst.bi - 1, bst.bj - 1, bst.bk + 1⟩ (by dsimp only; omega)
        (by dsimp only; omega)
      dsimp only at this
      refine ⟨this.1, this.2.1, ?_, ?_⟩ <;> omega
    · exact ⟨h1, h2, rfl, rfl⟩

theorem extFwd_bounds (a b : List Char) (ahi bhi : Nat) :
    ∀ (fuel : Nat) (bst : Best),
      ((extFwd a b ahi bhi fuel bst).bi = bst.bi ∧
        (extFwd a b ahi bhi fuel bst).bj = bst.bj ∧
        ((extFwd a b ahi bhi fuel bst).bi + (extFwd a b ahi bhi fuel bst).bk ≤
            max (bst.bi + bst.bk) ahi) ∧
        ((extFwd a b ahi bhi fuel bst).bj + (extFwd a b ahi bhi fuel bst).bk ≤
            max (bst.bj + bst.bk) bhi)) := by
  intro fuel
  induction fuel with
  | zero => intro bst; rw [extFwd]; exact ⟨rfl, rfl, le_max_left _ _, le_max_left _ _⟩
  | succ f ih =>
    intro bst
    rw [extFwd]
    split
    · next hcond =>
      obtain ⟨hc1, hc2, -⟩ := hcond
      have := ih ⟨bst.bi, bst.bj, bst.bk + 1⟩
      dsimp only at this
      refine ⟨this.1, this.2.1, ?_, ?_⟩ <;> omega
    · exact ⟨rfl, rfl, le_max_left _ _, le_max_left _ _⟩

/-- the block returned by `find_longest_match` lies inside the ranges. -/
theorem findLongest_bounds (a b : List Char) (alo ahi blo bhi : Nat)
    (h1 : alo ≤ ahi) (h2 : blo ≤ bhi) :
    alo ≤ (findLongest a b alo ahi blo bhi).bi ∧
      blo ≤ (findLongest a b alo ahi blo bhi).bj ∧
      (findLongest a b alo ahi blo bhi).bi + (findLongest a b alo ahi blo bhi).bk ≤ ahi ∧
      (findLongest a b alo ahi blo bhi).bj + (findLongest a b alo ahi blo bhi).bk ≤ bhi := by
  rw [findLongest]
  have hfp := firstPass_bounds a b alo ahi blo bhi h1 h2
  have hbk := extBack_bounds a b alo blo (firstPass a b alo ahi blo bhi).best.bi
    (firstPass a b alo ahi blo bhi).best hfp.1 hfp.2.1
  have hfw := extFwd_bounds a b ahi bhi ahi
    (extBack a b alo blo (firstPass a b alo ahi blo bhi).best.bi
      (firstPass a b alo ahi blo bhi).best)
  refine ⟨?_, ?_, ?_, ?_⟩ <;> omega

/-- the total matched size is bounded by the lengths of both ranges. -/
theorem matchSumF_le (a b : List Char) :
    ∀ (fuel alo ahi blo bhi : Nat), alo ≤ ahi → blo ≤ bhi →
      matchSumF a b fuel alo ahi blo bhi ≤ ahi - alo ∧
        matchSumF a b fuel alo ahi blo bhi ≤ bhi - blo := by
  intro fuel
  induction fuel with
  | zero => intro alo ahi blo bhi _ _; rw [matchSumF]; omega
  | succ f ih =>
    intro alo ahi blo bhi h1 h2
    rw [matchSumF]
    have hb := findLongest_bounds a b alo ahi blo bhi h1 h2
    split
    · omega
    · have hL : (if alo < (findLongest a b alo ahi blo bhi).bi ∧
          blo < (findLongest a b alo ahi blo bhi).bj then
            matchSumF a b f alo (findLongest a b alo ahi blo bhi).bi blo
              (findLongest a b alo ahi blo bhi).bj
          else 0) ≤ (findLongest a b alo ahi blo bhi).bi - alo ∧
          (if alo < (findLongest a b alo ahi blo bhi).bi ∧
          blo < (findLongest a b alo ahi blo bhi).bj then
            matchSumF a b f alo (findLongest a b alo ahi blo bhi).bi blo
              (findLongest a b alo ahi blo bhi).bj
          else 0) ≤ (findLongest a b alo ahi blo bhi).bj - blo := by
        split
        · next hc => exact ih alo _ blo _ (by omega) (by omega)
        · omega
      have hR : (if (findLongest a b alo ahi blo bhi).bi + (findLongest a b alo ahi blo bhi).bk
            < ahi ∧
          (findLongest a b alo ahi blo bhi).bj + (findLongest a b alo ahi blo bhi).bk < bhi then
            matchSumF a b f ((findLongest a b alo ahi blo bhi).bi +
              (findLongest a b alo ahi blo bhi).bk) ahi
              ((findLongest a b alo ahi blo bhi).bj +
              (findLongest a b alo ahi blo bhi).bk) bhi
          else 0) ≤ ahi - ((findLongest a b alo ahi blo bhi).bi +
            (findLongest a b alo ahi blo bhi).bk) ∧
          (if (findLongest a b alo ahi blo bhi).bi + (findLongest a b alo ahi blo bhi).bk
            < ahi ∧
          (findLongest a b alo ahi blo bhi).bj + (findLongest a b alo ahi blo bhi).bk < bhi then
            matchSumF a b f ((findLongest a b alo ahi blo bhi).bi +
              (findLongest a b alo ahi blo bhi).bk) ahi
              ((findLongest a b alo ahi blo bhi).bj +
              (findLongest a b alo ahi blo bhi).bk) bhi
          else 0) ≤ bhi - ((findLongest a b alo ahi blo bhi).bj +
            (findLongest a b alo ahi blo bhi).bk) := by
        split
        · next hc => exact ih _ ahi _ bhi (by omega) (by omega)
        · omega
      omega

/-- `M ≤ min(len a, len b)`. -/
theorem seqMatches_le (a b : List Char) :
    seqMatches a b ≤ a.length ∧ seqMatches a b ≤ b.length := by
  have := matchSumF_le a b (a.length + b.length + 1) 0 a.length 0 b.length
    (Nat.zero_le _) (Nat.zero_le _)
  rw [seqMatches]
  omega

/-- the ratio never exceeds 1. -/
theorem seqRatio_le_one (a b : List Char) : seqRatio a b ≤ 1 := by
  rw [seqRatio]
  split
  · exact le_refl 1
  · next h =>
    rw [mkRat_as_div]
    rw [div_le_one (by positivity)]
    have := seqMatches_le a b
    push_cast
    have h2 : (seqMatches a b : ℚ) ≤ a.length := by exact_mod_cast this.1
    have h3 : (seqMatches a b : ℚ) ≤ b.length := by exact_mod_cast this.2
    linarith

/-- the ratio is nonnegative. -/
theorem seqRatio_nonneg (a b : List Char) : 0 ≤ seqRatio a b := by
  rw [seqRatio]
  split
  · norm_num
  · next h =>
    rw [mkRat_as_div]
    positivity

/-! ## The ratio of a string with itself is 1

On identical inputs every best-block update of the first pass is diagonal
(`besti = bestj`), because the diagonal chain of a row always dominates
every cross chain of that row; the extension loops then extend the
diagonal block to the whole range.  The invariant `SelfInv` makes this
precise via `npRun`, the length of the maximal run of non-popular
characters ending at a position. -/

/-- length of the maximal run of non-popular characters of `s` ending at
position `t` and not reaching below `alo` (the value of the diagonal
chain of the first pass on identical ranges). -/
def npRun (s : List Char) (alo : Nat) : Nat → Nat
  | 0 => if alo = 0 ∧ isPopular s (s.getD 0 ' ') = false then 1 else 0
  | t + 1 =>
    if t + 1 < alo ∨ isPopular s (s.getD (t + 1) ' ') = true then 0
    else npRun s alo t + 1

theorem npRun_lt_alo {s : List Char} {alo t : Nat} (h : t < alo) : npRun s alo t = 0 := by
  cases t with
  | zero =>
    rw [npRun, if_neg]
    rintro ⟨h0, -⟩
    omega
  | succ u => rw [npRun, if_pos (Or.inl h)]

theorem npRun_pop {s : List Char} {alo t : Nat}
    (h : isPopular s (s.getD t ' ') = true) : npRun s alo t = 0 := by
  cases t with
  | zero =>
    rw [npRun, if_neg]
    rintro ⟨-, h0⟩
    rw [h] at h0
    cases h0
  | succ u => rw [npRun, if_pos (Or.inr h)]

theorem npRun_eq_prev {s : List Char} {alo t : Nat} (h1 : alo ≤ t)
    (h2 : isPopular s (s.getD t ' ') = false) :
    npRun s alo t = (if alo < t then npRun s alo (t - 1) else 0) + 1 := by
  cases t with
  | zero =>
    have : alo = 0 := by omega
    rw [npRun, if_pos ⟨this, h2⟩, if_neg (by omega)]
  | succ u =>
    rw [npRun, if_neg (by
      rintro (hlt | hpop)
      · omega
      · rw [h2] at hpop; cases hpop)]
    rcases Nat.lt_or_ge alo (u + 1) with hc | hc
    · rw [if_pos hc]
      norm_num
    · have : u < alo := by omega
      rw [if_neg (by omega), npRun_lt_alo this]

theorem npRun_le {s : List Char} {alo : Nat} :
    ∀ t, alo ≤ t → npRun s alo t + alo ≤ t + 1 := by
  intro t
  induction t with
  | zero =>
    intro h
    rw [npRun]
    split <;> omega
  | succ u ih =>
    intro h
    rw [npRun]
    split
    · omega
    · rcases Nat.lt_or_ge u alo with hc | hc
      · rw [npRun_lt_alo hc]; omega
      · have := ih hc
        omega

/-- membership in the candidate columns of a row. -/
theorem mem_rowCands {b : List Char} {c : Char} {blo bhi j : Nat} :
    j ∈ rowCands b c blo bhi ↔
      isPopular b c = false ∧ b.get? j = some c ∧ blo ≤ j ∧ j < bhi := by
  rw [rowCands, b2j]
  split
  · next hpop =>
    simp only [List.filter_nil, List.not_mem_nil, false_iff]
    rintro ⟨hq, -⟩
    rw [hpop] at hq
    cases hq
  · next hpop =>
    rw [Bool.not_eq_true] at hpop
    simp only [charPositions, List.mem_filter, List.mem_range, Bool.and_eq_true,
      decide_eq_true_eq]
    constructor
    · rintro ⟨⟨-, hget⟩, hb1, hb2⟩
      exact ⟨hpop, hget, hb1, hb2⟩
    · rintro ⟨-, hget, hb1, hb2⟩
      have : j < b.length := by
        rcases List.get?_eq_some.mp hget with ⟨hlt, -⟩
        exact hlt
      exact ⟨⟨this, hget⟩, hb1, hb2⟩

theorem rowCands_sorted (b : List Char) (c : Char) (blo bhi : Nat) :
    (rowCands b c blo bhi).Pairwise (· < ·) := by
  rw [rowCands, b2j]
  split
  · simp
  · exact ((List.pairwise_lt_range b.length).filter _).filter _

/-- split a strictly ascending list at a member. -/
theorem sorted_split {l : List Nat} (hs : l.Pairwise (· < ·)) {i : Nat} (hi : i ∈ l) :
    ∃ pre post, l = pre ++ i :: post ∧ (∀ x ∈ pre, x < i) ∧ (∀ x ∈ post, i < x) := by
  induction l with
  | nil => cases hi
  | cons a t ih =>
    rcases List.mem_cons.mp hi with rfl | hm
    · exact ⟨[], t, rfl, by simp, fun x hx => (List.pairwise_cons.mp hs).1 x hx⟩
    · obtain ⟨pre, post, heq, hpre, hpost⟩ := ih (List.pairwise_cons.mp hs).2 hm
      have hai : a < i := (List.pairwise_cons.mp hs).1 i hm
      refine ⟨a :: pre, post, by rw [heq]; rfl, ?_, hpost⟩
      intro x hx
      rcases List.mem_cons.mp hx with rfl | h
      · exact hai
      · exact hpre x h

/-- a fold of `bestUpd` over columns whose chain lengths do not beat the
current best leaves the best unchanged. -/
theorem foldl_bestUpd_noupd (i : Nat) (j2l : Nat → Nat) :
    ∀ (l : List Nat) (bst : Best), (∀ j ∈ l, kOf j2l j ≤ bst.bk) →
      l.foldl (bestUpd i j2l) bst = bst := by
  intro l
  induction l with
  | nil => intro bst _; rfl
  | cons j t ih =>
    intro bst h
    have hj := h j (List.mem_cons_self j t)
    simp only [List.foldl_cons, bestUpd, if_neg (not_lt.mpr hj)]
    exact ih bst (fun x hx => h x (List.mem_cons_of_mem j hx))

/-- the invariant of the first pass on identical strings and ranges,
after the rows `[alo, i)` have been processed. -/
def SelfInv (s : List Char) (alo i : Nat) (st : FP) : Prop :=
  (∀ x, st.j2len x ≤ npRun s alo x) ∧
  (∀ x, st.j2len x ≤ (if alo < i then npRun s alo (i - 1) else 0)) ∧
  (alo < i → st.j2len (i - 1) = npRun s alo (i - 1)) ∧
  (∀ t, alo ≤ t → t < i → npRun s alo t ≤ st.best.bk) ∧
  st.best.bi = st.best.bj ∧
  alo ≤ st.best.bi ∧ st.best.bi + st.best.bk ≤ i

theorem rowStep_self (s : List Char) (alo ahi : Nat) (hahi : ahi ≤ s.length) (i : Nat)
    (hal : alo ≤ i) (hi : i < ahi) (st : FP) (hinv : SelfInv s alo i st) :
    SelfInv s alo (i + 1) (rowStep s alo ahi st i (s.getD i ' ')) := by
  obtain ⟨hJ1, hJ2, hJ3, hJ4, hJ5, hJ6a, hJ6b⟩ := hinv
  by_cases hpop : isPopular s (s.getD i ' ') = true
  · -- popular row character: no candidates, j2len reset, best unchanged
    have hnil : rowCands s (s.getD i ' ') alo ahi = [] := by
      rw [rowCands, b2j, if_pos hpop, List.filter_nil]
    have hnp : npRun s alo i = 0 := npRun_pop hpop
    constructor
    · intro x
      rw [rowStep]
      simp only [hnil]
      rw [if_neg (List.not_mem_nil x)]
      exact Nat.zero_le _
    refine ⟨?_, ?_, ?_, ?_, ?_, ?_⟩
    · intro x
      rw [rowStep]
      simp only [hnil]
      rw [if_neg (List.not_mem_nil x)]
      exact Nat.zero_le _
    · intro _
      rw [rowStep]
      simp only [hnil, Nat.add_sub_cancel]
      rw [if_neg (List.not_mem_nil i), hnp]
    · intro t h1 h2
      rw [rowStep]
      simp only [hnil, List.foldl_nil]
      rcases Nat.lt_or_ge t i with hc | hc
      · exact hJ4 t h1 hc
      · have : t = i := by omega
        subst this
        rw [hnp]
        exact Nat.zero_le _
    · rw [rowStep]; simp only [hnil, List.foldl_nil]; exact hJ5
    · rw [rowStep]; simp only [hnil, List.foldl_nil]; exact hJ6a
    · rw [rowStep]; simp only [hnil, List.foldl_nil]; omega
  · -- non-popular row character: the diagonal chain dominates
    rw [Bool.not_eq_true] at hpop
    have hilen : i < s.length := lt_of_lt_of_le hi hahi
    have hget : s.get? i = some (s.getD i ' ') := by
      rw [List.get?_eq_getElem?, List.getD_eq_getElem?_getD]
      cases hq : s[i]? with
      | none =>
        rw [List.getElem?_eq_none_iff] at hq
        omega
      | some v => rfl
    have hmemi : i ∈ rowCands s (s.getD i ' ') alo ahi :=
      mem_rowCands.mpr ⟨hpop, hget, hal, hi⟩
    -- R is the bound of the previous row's chains
    obtain ⟨R, hR⟩ : ∃ R, (if alo < i then npRun s alo (i - 1) else 0) = R := ⟨_, rfl⟩
    have hnpi : npRun s alo i = R + 1 := by
      rw [← hR]
      exact npRun_eq_prev hal hpop
    have hki : kOf st.j2len i = R + 1 := by
      rw [← hR, kOf]
      rcases Nat.eq_zero_or_pos i with rfl | hipos
      · rw [if_pos rfl, if_neg (by omega)]
      · rw [if_neg (by omega)]
        rcases Nat.lt_or_ge alo i with hc | hc
        · rw [if_pos hc, hJ3 hc]
        · have heq : alo = i := by omega
          have := hJ2 (i - 1)
          rw [if_neg (by omega)] at this ⊢
          omega
    have hkle : ∀ j, kOf st.j2len j ≤ R + 1 := by
      intro j
      rw [← hR, kOf]
      rcases Nat.eq_zero_or_pos j with rfl | hjpos
      · rw [if_pos rfl]; omega
      · rw [if_neg (by omega)]
        have := hJ2 (j - 1)
        omega
    have hkmem : ∀ j ∈ rowCands s (s.getD i ' ') alo ahi,
        kOf st.j2len j ≤ npRun s alo j := by
      intro j hj
      obtain ⟨-, hgj, haj, -⟩ := mem_rowCands.mp hj
      have hpopj : isPopular s (s.getD j ' ') = false := by
        have : s.getD j ' ' = s.getD i ' ' := by
          rw [List.getD_eq_getElem?_getD, ← List.get?_eq_getElem?, hgj]
          rfl
        rw [this]
        exact hpop
      have hnpj : npRun s alo j = (if alo < j then npRun s alo (j - 1) else 0) + 1 :=
        npRun_eq_prev haj hpopj
      rw [kOf, hnpj]
      rcases Nat.eq_zero_or_pos j with rfl | hjpos
      · rw [if_pos rfl]; omega
      · rw [if_neg (by omega)]
        rcases Nat.lt_or_ge alo j with hc | hc
        · rw [if_pos hc]
          have := hJ1 (j - 1)
          omega
        · rw [if_neg (by omega)]
          have h1 := hJ1 (j - 1)
          have h2 : npRun s alo (j - 1) = 0 := npRun_lt_alo (by omega)
          omega
    -- split the candidate list at the diagonal column i
    obtain ⟨pre, post, hsplit, hpre, hpost⟩ :=
      sorted_split (rowCands_sorted s (s.getD i ' ') alo ahi) hmemi
    have hprenoupd : ∀ j ∈ pre, kOf st.j2len j ≤ st.best.bk := by
      intro j hj
      have hjmem : j ∈ rowCands s (s.getD i ' ') alo ahi := by
        rw [hsplit]
        exact List.mem_append_left _ hj
      obtain ⟨-, -, haj, -⟩ := mem_rowCands.mp hjmem
      exact le_trans (hkmem j hjmem) (hJ4 j haj (hpre j hj))
    have hfold : (rowCands s (s.getD i ' ') alo ahi).foldl (bestUpd i st.j2len) st.best =
        (if st.best.bk < R + 1 then (⟨i - R, i - R, R + 1⟩ : Best) else st.best) := by
      rw [hsplit, List.foldl_append, foldl_bestUpd_noupd i st.j2len pre st.best hprenoupd,
        List.foldl_cons]
      split
      · next hlt =>
        have hupd : bestUpd i st.j2len st.best i = (⟨i - R, i - R, R + 1⟩ : Best) := by
          simp only [bestUpd, hki]
          rw [if_pos hlt]
          congr 1 <;> omega
        rw [hupd]
        exact foldl_bestUpd_noupd i st.j2len post _ (fun j hj => by
          dsimp only
          exact hkle j)
      · next hge =>
        have hupd : bestUpd i st.j2len st.best i = st.best := by
          simp only [bestUpd, hki]
          rw [if_neg hge]
        rw [hupd]
        exact foldl_bestUpd_noupd i st.j2len post st.best (fun j hj =>
          le_trans (hkle j) (not_lt.mp hge))
    -- assemble the new invariant
    have hnple : R + 1 + alo ≤ i + 1 := by
      rw [← hnpi]
      exact npRun_le i hal
    constructor
    · intro x
      rw [rowStep]
      dsimp only
      split
      · next hx => exact hkmem x hx
      · exact Nat.zero_le _
    refine ⟨?_, ?_, ?_, ?_, ?_, ?_⟩
    · intro x
      rw [rowStep]
      dsimp only
      rw [if_pos (by omega : alo < i + 1), Nat.add_sub_cancel, hnpi]
      split
      · exact hkle x
      · exact Nat.zero_le _
    · intro _
      rw [rowStep]
      dsimp only
      rw [Nat.add_sub_cancel, if_pos hmemi, hki, hnpi]
    · intro t h1 h2
      rw [rowStep]
      dsimp only
      rw [hfold]
      rcases Nat.lt_or_ge t i with hc | hc
      · have := hJ4 t h1 hc
        split <;> (try dsimp only) <;> omega
      · have : t = i := by omega
        subst this
        rw [hnpi]
        split <;> (try dsimp only) <;> omega
    · rw [rowStep]
      dsimp only
      rw [hfold]
      split <;> [rfl; exact hJ5]
    · rw [rowStep]
      dsimp only
      rw [hfold]
      split <;> (try dsimp only) <;> omega
    · rw [rowStep]
      dsimp only
      rw [hfold]
      split <;> (try dsimp only) <;> omega

theorem fpGo_self (s : List Char) (alo ahi : Nat) (hahi : ahi ≤ s.length) :
    ∀ (fuel i : Nat) (st : FP), alo ≤ i → i + fuel = ahi → SelfInv s alo i st →
      SelfInv s alo ahi (fpGo s s alo ahi fuel i st) := by
  intro fuel
  induction fuel with
  | zero =>
    intro i st hal hend hinv
    rw [fpGo]
    have : i = ahi := by omega
    subst this
    exact hinv
  | succ f ih =>
    intro i st hal hend hinv
    rw [fpGo]
    exact ih (i + 1) _ (by omega) (by omega)
      (rowStep_self s alo ahi hahi i hal (by omega) st hinv)

theorem firstPass_self (s : List Char) (alo ahi : Nat) (h1 : alo ≤ ahi)
    (h2 : ahi ≤ s.length) :
    SelfInv s alo ahi (firstPass s s alo ahi alo ahi) := by
  rw [firstPass]
  refine fpGo_self s alo ahi h2 (ahi - alo) alo _ (le_refl alo) (by omega) ?_
  refine ⟨fun x => Nat.zero_le _, fun x => ?_, ?_, ?_, rfl, le_refl alo,
    by dsimp only; omega⟩
  · rw [if_neg (lt_irrefl alo)]
  · intro h
    exact absurd h (lt_irrefl alo)
  · intro t h1 h2
    omega

/-- on identical strings a diagonal block extends backward to `alo`. -/
theorem extBack_diag (s : List Char) (alo : Nat) :
    ∀ (fuel bi bk : Nat), bi - alo ≤ fuel → alo ≤ bi →
      extBack s s alo alo fuel ⟨bi, bi, bk⟩ = ⟨alo, alo, bk + (bi - alo)⟩ := by
  intro fuel
  induction fuel with
  | zero =>
    intro bi bk hf hal
    rw [extBack]
    have : bi = alo := by omega
    subst this
    norm_num
  | succ f ih =>
    intro bi bk hf hal
    rw [extBack]
    rcases Nat.lt_or_ge alo bi with hc | hc
    · rw [if_pos ⟨hc, hc, rfl⟩]
      dsimp only
      have ha1 : bi - 1 - alo ≤ f := by omega
      have ha2 : alo ≤ bi - 1 := by omega
      rw [ih (bi - 1) (bk + 1) ha1 ha2]
      congr 1
      omega
    · have : bi = alo := by omega
      subst this
      rw [if_neg (by rintro ⟨hx, -⟩; dsimp only at hx; omega)]
      norm_num

/-- on identical strings a diagonal block extends forward to `ahi`. -/
theorem extFwd_diag (s : List Char) (alo ahi : Nat) :
    ∀ (fuel bk : Nat), ahi - (alo + bk) ≤ fuel → alo + bk ≤ ahi →
      extFwd s s ahi ahi fuel ⟨alo, alo, bk⟩ = ⟨alo, alo, ahi - alo⟩ := by
  intro fuel
  induction fuel with
  | zero =>
    intro bk hf hal
    rw [extFwd]
    have : alo + bk = ahi := by omega
    congr 1
    omega
  | succ f ih =>
    intro bk hf hal
    rw [extFwd]
    rcases Nat.lt_or_ge (alo + bk) ahi with hc | hc
    · rw [if_pos ⟨hc, hc, rfl⟩]
      dsimp only
      have ha1 : ahi - (alo + (bk + 1)) ≤ f := by omega
      have ha2 : alo + (bk + 1) ≤ ahi := by omega
      exact ih (bk + 1) ha1 ha2
    · have : alo + bk = ahi := by omega
      rw [if_neg (by rintro ⟨hx, -⟩; dsimp only at hx; omega)]
      congr 1
      omega

/-- on identical strings and ranges `find_longest_match` returns the whole
range. -/
theorem findLongest_self (s : List Char) (alo ahi : Nat) (h1 : alo ≤ ahi)
    (h2 : ahi ≤ s.length) :
    findLongest s s alo ahi alo ahi = ⟨alo, alo, ahi - alo⟩ := by
  rw [findLongest]
  obtain ⟨-, -, -, -, hJ5, hJ6a, hJ6b⟩ := firstPass_self s alo ahi h1 h2
  have hbst : (firstPass s s alo ahi alo ahi).best =
      ⟨(firstPass s s alo ahi alo ahi).best.bi, (firstPass s s alo ahi alo ahi).best.bi,
        (firstPass s s alo ahi alo ahi).best.bk⟩ := by
    cases hb : (firstPass s s alo ahi alo ahi).best with
    | mk x y z =>
      rw [hb] at hJ5
      dsimp only at hJ5 ⊢
      rw [hJ5]
  rw [hbst]
  rw [extBack_diag s alo (firstPass s s alo ahi alo ahi).best.bi
    (firstPass s s alo ahi alo ahi).best.bi
    (firstPass s s alo ahi alo ahi).best.bk (Nat.sub_le _ _) hJ6a]
  rw [extFwd_diag s alo ahi ahi _ (by omega) (by omega)]

/-- on identical strings and ranges the matched total is the whole range. -/
theorem matchSumF_self (s : List Char) :
    ∀ (fuel alo ahi : Nat), 1 ≤ fuel → alo ≤ ahi → ahi ≤ s.length →
      matchSumF s s fuel alo ahi alo ahi = ahi - alo := by
  intro fuel
  cases fuel with
  | zero => intro alo ahi h; omega
  | succ f =>
    intro alo ahi _ h1 h2
    rw [matchSumF, findLongest_self s alo ahi h1 h2]
    dsimp only
    rcases Nat.eq_or_lt_of_le h1 with heq | hlt
    · subst heq
      rw [if_pos (by omega)]
      omega
    · rw [if_neg (by omega),
        if_neg (by rintro ⟨hx, -⟩; omega),
        if_neg (by rintro ⟨hx, -⟩; omega)]
      omega

/-- `M = len(s)` when a string is compared with itself. -/
theorem seqMatches_self (s : List Char) : seqMatches s s = s.length := by
  rw [seqMatches]
  rw [matchSumF_self s (s.length + s.length + 1) 0 s.length (by omega) (Nat.zero_le _)
    (le_refl _)]
  omega

/-- the extension loops stop immediately when their condition fails. -/
theorem extBack_stop (a b : List Char) (alo blo fuel : Nat) (bst : Best)
    (h : ¬ (alo < bst.bi ∧ blo < bst.bj ∧
      a.getD (bst.bi - 1) ' ' = b.getD (bst.bj - 1) ' ')) :
    extBack a b alo blo fuel bst = bst := by
  cases fuel with
  | zero => rfl
  | succ f => rw [extBack, if_neg h]

theorem extFwd_stop (a b : List Char) (ahi bhi fuel : Nat) (bst : Best)
    (h : ¬ (bst.bi + bst.bk < ahi ∧ bst.bj + bst.bk < bhi ∧
      a.getD (bst.bi + bst.bk) ' ' = b.getD (bst.bj + bst.bk) ' ')) :
    extFwd a b ahi bhi fuel bst = bst := by
  cases fuel with
  | zero => rfl
  | succ f => rw [extFwd, if_neg h]

/-- when the first string range is empty there is no match. -/
theorem matchSumF_alo_self (a b : List Char) (fuel alo blo bhi : Nat) :
    matchSumF a b fuel alo alo blo bhi = 0 := by
  cases fuel with
  | zero => rfl
  | succ f =>
    rw [matchSumF]
    have hfp : firstPass a b alo alo blo bhi = ⟨fun _ => 0, ⟨alo, blo, 0⟩⟩ := by
      rw [firstPass, Nat.sub_self, fpGo]
    have hfl : findLongest a b alo alo blo bhi = ⟨alo, blo, 0⟩ := by
      rw [findLongest, hfp]
      rw [extBack_stop a b alo blo _ _ (by rintro ⟨hx, -⟩; dsimp only at hx; omega)]
      rw [extFwd_stop a b alo bhi _ _ (by rintro ⟨hx, -⟩; dsimp only at hx; omega)]
    rw [hfl]
    simp

/-- an empty first string gives ratio 0 against a nonempty second one. -/
theorem seqRatio_nil_left (x : List Char) (hx : x ≠ []) : seqRatio [] x = 0 := by
  rw [seqRatio]
  rw [if_neg (by simp [List.length_eq_zero, hx])]
  rw [seqMatches, List.length_nil, matchSumF_alo_self]
  rw [mkRat_as_div]
  norm_num

/-- with an empty second string the first pass never updates the best. -/
theorem fpGo_best_bhi_zero (a b : List Char) (blo : Nat) :
    ∀ (fuel i : Nat) (st : FP), (fpGo a b blo 0 fuel i st).best = st.best := by
  intro fuel
  induction fuel with
  | zero => intro i st; rfl
  | succ f ih =>
    intro i st
    rw [fpGo, ih]
    rw [rowStep]
    dsimp only
    have : rowCands b (a.getD i ' ') blo 0 = [] := by
      rw [rowCands, List.filter_eq_nil_iff]
      intro j hj
      simp
    rw [this]
    rfl

/-- a nonempty first string gives ratio 0 against an empty second one. -/
theorem seqRatio_nil_right (x : List Char) (hx : x ≠ []) : seqRatio x [] = 0 := by
  rw [seqRatio]
  rw [if_neg (by simp [List.length_eq_zero, hx])]
  rw [seqMatches]
  have hfp : (firstPass x [] 0 x.length 0 ([] : List Char).length).best = ⟨0, 0, 0⟩ := by
    rw [firstPass]
    exact fpGo_best_bhi_zero x [] 0 _ 0 _
  have hfl : findLongest x [] 0 x.length 0 ([] : List Char).length = ⟨0, 0, 0⟩ := by
    rw [findLongest, hfp]
    rw [extBack_stop _ _ _ _ _ _ (by rintro ⟨hx1, -⟩; simp at hx1)]
    rw [extFwd_stop _ _ _ _ _ _ (by rintro ⟨-, hx2, -⟩; simp at hx2)]
  have hms : matchSumF x [] (x.length + ([] : List Char).length + 1) 0 x.length 0
      ([] : List Char).length = 0 := by
    rw [matchSumF, hfl]
    simp
  rw [hms, mkRat_as_div]
  norm_num

/-- `SequenceMatcher(None, s, s).ratio() == 1.0` for every string. -/
theorem seqRatio_self (s : List Char) : seqRatio s s = 1 := by
  rw [seqRatio]
  split
  · rfl
  · next h =>
    rw [seqMatches_self, mkRat_as_div]
    have hpos : (0 : ℚ) < (s.length : ℚ) + (s.length : ℚ) := by
      have : s.length ≠ 0 := by omega
      have : (0 : ℚ) < (s.length : ℚ) := by positivity
      linarith
    push_cast
    field_simp
    ring

/-! ## Claims -/

/-- C6 counterexample: the similarity primitive is not symmetric.
`SequenceMatcher(None, 'ab', 'bacb').ratio()` is 2/3 while the reversed
call gives 1/3, for both `fuzzy_match_ratio` and `similarity_score`. -/
theorem C6_counterexample :
    fuzzy_match_ratio ['a','b'] ['b','a','c','b'] = mkRat 2 3 ∧
    fuzzy_match_ratio ['b','a','c','b'] ['a','b'] = mkRat 1 3 ∧
    fuzzy_match_ratio ['a','b'] ['b','a','c','b'] ≠
      fuzzy_match_ratio ['b','a','c','b'] ['a','b'] ∧
    similarity_score ['a','b'] ['b','a','c','b'] ≠
      similarity_score ['b','a','c','b'] ['a','b'] := by decide

/-- C6 amended: the similarity primitive is deterministic (a pure function
of its two inputs), but it is not symmetric: `SequenceMatcher.ratio`
depends on the argument order, witnessed by the pair ('ab', 'bacb'). -/
theorem C6_amended :
    (∀ a b : List Char,
      fuzzy_match_ratio a b = fuzzy_match_ratio a b ∧
      similarity_score a b = similarity_score a b) ∧
    ¬ (∀ a b : List Char, fuzzy_match_ratio a b = fuzzy_match_ratio b a) ∧
    ¬ (∀ a b : List Char, similarity_score a b = similarity_score b a) := by
  refine ⟨fun a b => ⟨rfl, rfl⟩, fun h => ?_, fun h => ?_⟩
  · have := h ['a','b'] ['b','a','c','b']
    revert this
    decide
  · have := h ['a','b'] ['b','a','c','b']
    revert this
    decide

/-- C7 counterexample: `fuzzy_match_ratio` has no empty-input guard and
`SequenceMatcher` reports ratio 1.0 for two empty strings, so the
primitive does not return 0.0 whenever either input is empty. -/
theorem C7_counterexample :
    fuzzy_match_ratio [] [] = 1 ∧ (1 : ℚ) ≠ 0 := by decide

/-- C7 amended: `similarity(a, a) = 1.0` for every (even empty) `a` under
`fuzzy_match_ratio` and for every nonempty `a` under the guarded
`similarity_score`; `similarity_score` returns 0.0 whenever either input
is empty; `fuzzy_match_ratio` returns 0.0 when exactly one input is empty,
but returns 1.0 when both are empty. -/
theorem C7_amended :
    (∀ a : List Char, fuzzy_match_ratio a a = 1) ∧
    (∀ a : List Char, a ≠ [] → similarity_score a a = 1) ∧
    (∀ x : List Char, similarity_score [] x = 0 ∧ similarity_score x [] = 0) ∧
    (∀ x : List Char, x ≠ [] → fuzzy_match_ratio [] x = 0 ∧ fuzzy_match_ratio x [] = 0) ∧
    fuzzy_match_ratio [] [] = 1 := by
  refine ⟨?_, ?_, ?_, ?_, by decide⟩
  · intro a
    rw [fuzzy_match_ratio, seqRatio_self]
  · intro a ha
    rw [similarity_score, if_neg (by simp [ha]), seqRatio_self]
  · intro x
    constructor
    · rw [similarity_score, if_pos (Or.inl rfl)]
    · rw [similarity_score, if_pos (Or.inr rfl)]
  · intro x hx
    have hlx : lowerL x ≠ [] := by
      simp [lowerL, hx]
    constructor
    · rw [fuzzy_match_ratio]
      exact seqRatio_nil_left (lowerL x) hlx
    · rw [fuzzy_match_ratio]
      exact seqRatio_nil_right (lowerL x) hlx

/-- C7 witness: the amended statement applied at concrete inputs. -/
theorem C7_witness :
    fuzzy_match_ratio ['a'] ['a'] = 1 ∧ similarity_score ['a'] ['a'] = 1 ∧
    similarity_score [] ['b'] = 0 ∧ fuzzy_match_ratio [] ['b'] = 0 :=
  ⟨C7_amended.1 ['a'], C7_amended.2.1 ['a'] (by decide),
    (C7_amended.2.2.1 ['b']).1, (C7_amended.2.2.2.1 ['b'] (by decide)).1⟩

/-! ## Lemmas about the cross-source matcher -/

/-- the inner loop retains a candidate iff some candidate beats both the
running best and the 0.85 threshold. -/
theorem bestAws_go (ytn : List Char) :
    ∀ (l : List Video) (acc : Option Video × ℚ × List Char),
      ((l.foldl (bestAwsStep ytn) acc).1.isSome = true ↔
        acc.1.isSome = true ∨ ∃ a ∈ l,
          acc.2.1 < similarity_score ytn (normalize_title a.title) ∧
          mkRat 85 100 < similarity_score ytn (normalize_title a.title)) := by
  intro l
  induction l with
  | nil => intro acc; simp
  | cons a t ih =>
    intro acc
    rw [List.foldl_cons]
    simp only [bestAwsStep]
    split
    · next hcond =>
      rw [ih]
      simp only [List.mem_cons, Option.isSome_some]
      constructor
      · intro _
        exact Or.inr ⟨a, Or.inl rfl, hcond⟩
      · intro _
        exact Or.inl trivial
    · next hcond =>
      rw [ih]
      simp only [List.mem_cons]
      constructor
      · rintro (h | ⟨x, hx, h2⟩)
        · exact Or.inl h
        · exact Or.inr ⟨x, Or.inr hx, h2⟩
      · rintro (h | ⟨x, hx', h2⟩)
        · exact Or.inl h
        · rcases hx' with rfl | hx
          · exact absurd h2 hcond
          · exact Or.inr ⟨x, hx, h2⟩

/-- a best candidate is retained iff the maximal similarity strictly
exceeds the 0.85 threshold. -/
theorem bestAws_isSome_iff (ytn : List Char) (aws : List Video) :
    ((bestAws ytn aws).1.isSome = true ↔
      ∃ a ∈ aws, mkRat 85 100 < similarity_score ytn (normalize_title a.title)) := by
  rw [bestAws, bestAws_go]
  simp only [Option.isSome_none, Bool.false_eq_true, false_or]
  constructor
  · rintro ⟨a, ha, -, h2⟩
    exact ⟨a, ha, h2⟩
  · rintro ⟨a, ha, h2⟩
    refine ⟨a, ha, lt_trans (by decide) h2, h2⟩

/-- the unmatched list of one matcher step. -/
theorem matchStep_unmatched (aws : List Video) (acc : List (Nat × MatchEntry) × List Video)
    (y : Video) :
    (matchStep aws acc y).2 = if matchedOkB aws y then acc.2 else acc.2 ++ [y] := by
  rw [matchStep, matchedOkB]
  cases h : (bestAws (normalize_title y.title) aws).1 with
  | none => simp [h]
  | some am =>
    by_cases hsp : (bestAws (normalize_title y.title) aws).2.2 = []
    · simp [h, hsp]
    · simp [h, hsp]

/-- the unmatched output of `match_videos` is exactly the filter of the
per-video decision. -/
theorem match_videos_unmatched (yt aws : List Video) :
    (match_videos yt aws).2 = yt.filter (fun y => ! matchedOkB aws y) := by
  suffices h : ∀ (l : List Video) (acc : List (Nat × MatchEntry) × List Video),
      (l.foldl (matchStep aws) acc).2 = acc.2 ++ l.filter (fun y => ! matchedOkB aws y) by
    simpa [match_videos] using h yt ([], [])
  intro l
  induction l with
  | nil => intro acc; simp
  | cons y t ih =>
    intro acc
    rw [List.foldl_cons, ih, List.filter_cons]
    by_cases hm : matchedOkB aws y
    · rw [matchStep_unmatched, if_pos hm]
      simp [hm]
    · rw [matchStep_unmatched, if_neg hm]
      simp [hm]

/-- keys of a Python dict after an assignment. -/
theorem mem_key_dictInsert (ms : List (Nat × MatchEntry)) (k k' : Nat) (v : MatchEntry) :
    ((∃ e, (k, e) ∈ dictInsert ms k' v) ↔ k = k' ∨ ∃ e, (k, e) ∈ ms) := by
  induction ms with
  | nil =>
    simp only [dictInsert, List.mem_singleton, List.not_mem_nil, Prod.mk.injEq]
    constructor
    · rintro ⟨e, he1, -⟩
      exact Or.inl he1
    · rintro (rfl | ⟨e, he⟩)
      · exact ⟨v, rfl, rfl⟩
      · cases he
  | cons p t ih =>
    rw [dictInsert]
    split
    · next hk =>
      subst hk
      simp only [List.mem_cons, Prod.mk.injEq]
      constructor
      · rintro ⟨e, ⟨h1, -⟩ | h⟩
        · exact Or.inl h1
        · exact Or.inr ⟨e, Or.inr h⟩
      · rintro (rfl | ⟨e, he⟩)
        · exact ⟨v, Or.inl ⟨rfl, rfl⟩⟩
        · rcases he with heq | h
          · exact ⟨v, Or.inl ⟨by rw [Prod.ext_iff] at heq; exact heq.1, rfl⟩⟩
          · exact ⟨e, Or.inr h⟩
    · next hk =>
      simp only [List.mem_cons]
      constructor
      · rintro ⟨e, heq | h⟩
        · exact Or.inr ⟨e, Or.inl heq⟩
        · rcases ih.mp ⟨e, h⟩ with h1 | ⟨e', he'⟩
          · exact Or.inl h1
          · exact Or.inr ⟨e', Or.inr he'⟩
      · rintro (rfl | ⟨e, heq | h⟩)
        · obtain ⟨e', he'⟩ := ih.mpr (Or.inl rfl)
          exact ⟨e', Or.inr he'⟩
        · exact ⟨e, Or.inl heq⟩
        · obtain ⟨e', he'⟩ := ih.mpr (Or.inr ⟨e, h⟩)
          exact ⟨e', Or.inr he'⟩

/-- keys of the matches dict after one matcher step. -/
theorem mem_key_matchStep (aws : List Video) (acc : List (Nat × MatchEntry) × List Video)
    (y : Video) (k : Nat) :
    ((∃ e, (k, e) ∈ (matchStep aws acc y).1) ↔
      (matchedOkB aws y = true ∧ k = y.content_id) ∨ ∃ e, (k, e) ∈ acc.1) := by
  rw [matchStep, matchedOkB]
  cases h : (bestAws (normalize_title y.title) aws).1 with
  | none => simp [h]
  | some am =>
    by_cases hsp : (bestAws (normalize_title y.title) aws).2.2 = []
    · simp [h, hsp]
    · simp only [h, hsp, ne_eq, not_false_eq_true, if_pos, Option.isSome_some,
        Bool.true_and, decide_eq_true_eq]
      rw [mem_key_dictInsert]
      tauto

/-- a key is present in the matches dict iff some input video with that
content id matched. -/
theorem match_videos_keys (yt aws : List Video) (k : Nat) :
    ((∃ e, (k, e) ∈ (match_videos yt aws).1) ↔
      ∃ y ∈ yt, y.content_id = k ∧ matchedOkB aws y = true) := by
  suffices h : ∀ (l : List Video) (acc : List (Nat × MatchEntry) × List Video),
      ((∃ e, (k, e) ∈ (l.foldl (matchStep aws) acc).1) ↔
        (∃ e, (k, e) ∈ acc.1) ∨ ∃ y ∈ l, y.content_id = k ∧ matchedOkB aws y = true) by
    rw [match_videos, h yt ([], [])]
    simp
  intro l
  induction l with
  | nil => intro acc; simp
  | cons y t ih =>
    intro acc
    rw [List.foldl_cons, ih, mem_key_matchStep]
    simp only [List.mem_cons]
    constructor
    · rintro ((⟨hm, hk⟩ | he) | ⟨x, hx, h1, h2⟩)
      · exact Or.inr ⟨y, Or.inl rfl, hk.symm, hm⟩
      · exact Or.inl he
      · exact Or.inr ⟨x, Or.inr hx, h1, h2⟩
    · rintro (he | ⟨x, hx, h1, h2⟩)
      · exact Or.inl (Or.inr he)
      · rcases hx with rfl | hx
        · exact Or.inl (Or.inl ⟨h2, h1.symm⟩)
        · exact Or.inr ⟨x, hx, h1, h2⟩

/-- with an empty primary collection every step leaves the matches dict
unchanged and appends the record to the unmatched list. -/
theorem match_videos_nil_primary (yt : List Video) : match_videos yt [] = ([], yt) := by
  have hm : ∀ y : Video, matchedOkB [] y = false := fun y => rfl
  have h1 : (match_videos yt []).1 = [] := by
    cases h : (match_videos yt []).1 with
    | nil => rfl
    | cons p rest =>
      exfalso
      have hp : ∃ e, (p.1, e) ∈ (match_videos yt []).1 := ⟨p.2, by rw [h]; simp⟩
      rw [match_videos_keys] at hp
      obtain ⟨y, -, -, hy⟩ := hp
      rw [hm y] at hy
      cases hy
  have h2 : (match_videos yt []).2 = yt := by
    rw [match_videos_unmatched]
    simp [hm]
  rw [Prod.ext_iff]
  exact ⟨h1, h2⟩

/-- `find_unmatched_aws_videos` keeps exactly the AWS videos with no
above-threshold YouTube counterpart. -/
theorem find_unmatched_filter (aws yt : List Video) :
    find_unmatched_aws_videos aws yt = aws.filter (fun a =>
      ! yt.any (fun y => decide (mkRat 85 100 <
        similarity_score (normalize_title a.title) (normalize_title y.title)))) := by
  suffices h : ∀ (l : List Video) (acc : List Video),
      (l.foldl (fun um a =>
        if yt.any (fun y => decide (mkRat 85 100 <
            similarity_score (normalize_title a.title) (normalize_title y.title))) then um
        else um ++ [a]) acc) = acc ++ l.filter (fun a =>
          ! yt.any (fun y => decide (mkRat 85 100 <
            similarity_score (normalize_title a.title) (normalize_title y.title)))) by
    simpa [find_unmatched_aws_videos] using h aws []
  intro l
  induction l with
  | nil => intro acc; simp
  | cons a t ih =>
    intro acc
    rw [List.foldl_cons, List.filter_cons]
    by_cases hm : yt.any (fun y => decide (mkRat 85 100 <
        similarity_score (normalize_title a.title) (normalize_title y.title)))
    · rw [if_pos hm, ih]
      simp [hm]
    · rw [if_neg hm, ih]
      simp [hm]

/-- the empty string is a Python substring of every string. -/
theorem pyIn_nil (l : List Char) : pyIn [] l = true := by
  cases l with
  | nil => rfl
  | cons c t => rfl

/-- an empty query scores every video 1.0 with match type exact_title
(stage 1 fires because the empty string is a substring of every title). -/
theorem scoreVideo_empty_query (thr : ℚ) (v : Video) :
    scoreVideo thr [] [] v = (1, some MatchType.exact_title) := by
  simp only [scoreVideo]
  rw [titleStage, if_pos (pyIn_nil _)]
  rw [descStage, if_neg (by decide)]
  rw [partWordStage, if_neg (by simp)]

/-- a `filterMap` whose function always succeeds is a `map`. -/
theorem filterMap_all_some (f : α → Option β) (g : α → β)
    (h : ∀ a, f a = some (g a)) (l : List α) : l.filterMap f = l.map g := by
  induction l with
  | nil => rfl
  | cons a t ih => simp only [List.filterMap_cons, h a, List.map_cons, ih]

/-- the search engine on the empty query: every video of the collection
becomes a hit of score 1 and match type exact_title; only the tie-broken
sort by `created_at` remains. -/
theorem fuzzy_search_empty_query (videos : List Video) :
    fuzzy_search_videos videos [] =
      pySort hitKeyGt (videos.map (fun v => ⟨v, 1, some MatchType.exact_title⟩)) := by
  simp only [fuzzy_search_videos]
  congr 1
  refine filterMap_all_some _ _ ?_ videos
  intro v
  have hL : stripL (lowerL ([] : List Char)) = [] := rfl
  have hW : ((splitWs ([] : List Char)).filter (fun w => 2 ≤ w.length)) = [] := rfl
  rw [hL, hW, scoreVideo_empty_query]
  rfl

/-- the similarity primitive never exceeds 1. -/
theorem fuzzy_match_ratio_le_one (a b : List Char) : fuzzy_match_ratio a b ≤ 1 :=
  seqRatio_le_one _ _

/-- the similarity primitive is nonnegative. -/
theorem fuzzy_match_ratio_nonneg (a b : List Char) : 0 ≤ fuzzy_match_ratio a b :=
  seqRatio_nonneg _ _

/-- word-level fuzzy scores lie in [0, 1]. -/
theorem fuzzy_match_word_bounds (sw tw : List Char) :
    0 ≤ (fuzzy_match_word sw tw).2 ∧ (fuzzy_match_word sw tw).2 ≤ 1 := by
  simp only [fuzzy_match_word]
  split
  · split
    · exact ⟨zero_le_one, le_refl 1⟩
    · exact ⟨le_refl 0, zero_le_one⟩
  · split
    · exact ⟨zero_le_one, le_refl 1⟩
    · split
      · exact ⟨by dsimp only; decide, by dsimp only; decide⟩
      · split
        · split
          · exact ⟨fuzzy_match_ratio_nonneg sw tw, fuzzy_match_ratio_le_one sw tw⟩
          · exact ⟨le_refl 0, zero_le_one⟩
        · split
          · exact ⟨fuzzy_match_ratio_nonneg sw tw, fuzzy_match_ratio_le_one sw tw⟩
          · exact ⟨le_refl 0, zero_le_one⟩

/-- an exact title substring short-circuits the whole per-video scoring:
the hit is (1.0, exact_title) whatever the threshold and query words. -/
theorem scoreVideo_exact (thr : ℚ) (searchL : List Char) (sws : List (List Char))
    (v : Video) (h : pyIn searchL (lowerL v.title) = true) :
    scoreVideo thr searchL sws v = (1, some MatchType.exact_title) := by
  simp only [scoreVideo]
  rw [titleStage, if_pos h]
  rw [descStage, if_neg (by decide)]
  rw [partWordStage, if_neg (fun hc => absurd hc.1 (by decide))]

/-- a title hit whose match type is fuzzy_title or fuzzy_word_title has
score at most 0.85 (so strictly below an exact hit's 1.0). -/
theorem titleStage_fuzzy_le (thr : ℚ) (searchL : List Char) (sws : List (List Char))
    (titleL : List Char)
    (h : (titleStage thr searchL sws titleL).2 = some MatchType.fuzzy_title ∨
         (titleStage thr searchL sws titleL).2 = some MatchType.fuzzy_word_title) :
    (titleStage thr searchL sws titleL).1 ≤ mkRat 85 100 := by
  have h85 : (0 : ℚ) ≤ mkRat 85 100 := by decide
  have h75 : (0 : ℚ) ≤ mkRat 75 100 := by decide
  have h7585 : (mkRat 75 100 : ℚ) ≤ mkRat 85 100 := by decide
  have htr1 := fuzzy_match_ratio_le_one searchL titleL
  have hs1 : (if thr ≤ fuzzy_match_ratio searchL titleL then
      ((max 0 (fuzzy_match_ratio searchL titleL * mkRat 85 100), some MatchType.fuzzy_title) :
        ℚ × Option MatchType)
      else (0, none)).1 ≤ mkRat 85 100 := by
    split
    · exact max_le h85 (mul_le_of_le_one_left h85 htr1)
    · exact h85
  simp only [titleStage] at h ⊢
  by_cases c1 : pyIn searchL titleL = true
  · rw [if_pos c1] at h
    simp at h
  · rw [if_neg c1] at h ⊢
    by_cases c2 : sws ≠ [] ∧ sws.all
        (fun sw => (splitWs titleL).any (fun tw => (fuzzy_match_word sw tw).1)) = true
    · rw [if_pos c2] at h
      simp at h
    · rw [if_neg c2] at h ⊢
      by_cases c3 : 3 ≤ searchL.length
      · rw [if_pos c3] at h ⊢
        cases hfind : ((splitWs titleL).filter (fun w => 3 ≤ w.length)).find?
            (fun w => (fuzzy_match_word searchL w).1) with
        | none =>
          simp only [hfind, qMax_eq, qMul_eq]
          exact hs1
        | some w =>
          simp only [hfind, qMax_eq, qMul_eq]
          exact max_le hs1 (le_trans (mul_le_of_le_one_left h75
            (fuzzy_match_word_bounds searchL w).2) h7585)
      · rw [if_neg c3] at h
        simp at h

/-- the ids of entries produced by an id-preserving `filterMap` form a
sublist of the input ids. -/
theorem ids_sublist_of_filterMap (f : Nat → Option RespVideo)
    (hf : ∀ a e, f a = some e → e.id = a) (ts : List Nat) :
    ((ts.filterMap f).map (fun e => e.id)).Sublist ts := by
  induction ts with
  | nil => simp
  | cons a t ih =>
    rw [List.filterMap_cons]
    cases hfa : f a with
    | none => exact ih.cons a
    | some e =>
      rw [List.map_cons, hf a e hfa]
      exact ih.cons₂ a

/-- membership in the appended timestop entries: exactly the timestop ids
absent from the primary page and present in the loaded collection. -/
theorem mem_timestopExtras (all : List Video) (ts tr ids : List Nat) (vid : Nat) :
    ((⟨vid, mkRat 1 2, MatchTag.timestop⟩ : RespVideo) ∈ timestopExtras all ts tr ids ↔
      vid ∈ ts ∧ vid ∉ ids ∧ (timestopLookup all (ts ++ tr) vid).isSome = true) := by
  rw [timestopExtras, List.mem_filterMap]
  constructor
  · rintro ⟨a, ha, he⟩
    split at he
    · next hc =>
      simp only [Option.some.injEq, RespVideo.mk.injEq] at he
      rw [← he.1]
      exact ⟨ha, hc.1, hc.2⟩
    · exact Option.noConfusion he
  · rintro ⟨h1, h2, h3⟩
    exact ⟨vid, h1, by rw [if_pos ⟨h2, h3⟩]⟩

/-- every appended timestop entry has score 0.5, tag timestop, and an id
from the timestop id list that is absent from the primary page. -/
theorem timestopExtras_shape (all : List Video) (ts tr ids : List Nat) (e : RespVideo)
    (he : e ∈ timestopExtras all ts tr ids) :
    e.score = mkRat 1 2 ∧ e.tag = MatchTag.timestop ∧ e.id ∈ ts ∧ e.id ∉ ids := by
  rw [timestopExtras, List.mem_filterMap] at he
  obtain ⟨a, ha, hfa⟩ := he
  split at hfa
  · next hc =>
    simp only [Option.some.injEq] at hfa
    subst hfa
    exact ⟨rfl, rfl, ha, hc.1⟩
  · exact Option.noConfusion hfa

/-- distinct timestop ids are appended at most once each. -/
theorem timestopExtras_ids_nodup (all : List Video) (ts tr ids : List Nat)
    (h : ts.Nodup) : ((timestopExtras all ts tr ids).map (fun e => e.id)).Nodup := by
  refine h.sublist (ids_sublist_of_filterMap _ ?_ ts)
  intro a e hfa
  split at hfa
  · simp only [Option.some.injEq] at hfa
    subst hfa
    rfl
  · exact Option.noConfusion hfa

/-- a Python slice `l[s:e]` with nonnegative bounds returns at most
`e - s` elements. -/
theorem length_pySlice_le (l : List α) (s e : Int) (hs : 0 ≤ s) (he : 0 ≤ e) :
    (pySlice l s e).length ≤ (e - s).toNat := by
  rw [pySlice]
  rw [if_neg (not_lt.mpr hs), if_neg (not_lt.mpr he), List.length_take, List.length_drop]
  omega

/-- C9: requesting page 0 is neither clamped nor rejected and silently
misbehaves: on a one-video space, `page=0&per_page=24` returns an empty
video list while reporting total = 1 and total_pages = 1 (page 1 does
return the video); the search endpoint with page 0 likewise returns an
empty list and total 0 even though the same query on page 1 has hits. -/
theorem C9_page_zero_silent_empty :
    get_space_videos [⟨5, ['t'], [], [], []⟩] 0 24 [] = ⟨[], 0, 24, 1, 1⟩ ∧
    (get_space_videos [⟨5, ['t'], [], [], []⟩] 1 24 []).videos = [⟨5, ['t'], [], [], []⟩] ∧
    search_all_videos_fuzzy [vA, vB] ['a','b'] 0 24 [] [] = ⟨[], ⟨0, 24, 0, 0⟩, 0⟩ ∧
    (fuzzy_search_videos [vA, vB] ['a','b'] (mkRat 1 2)).length = 2 := by
  exact ⟨by decide, by decide, by decide, by decide⟩

/-- C1 counterexample: with two fuzzy hits and per_page = 1 the reported
total is 1, not 2: the primary hit list is truncated to the requested
page BEFORE the timestop merge, so the reported total counts one page of
primary hits plus extras, not the full merged result set; page 2 then
returns an empty list (the page slice is applied a second time to the
already-sliced merged list). -/
theorem C1_counterexample :
    (fuzzy_search_videos [vA, vB] ['a','b'] (mkRat 1 2)).length = 2 ∧
    search_all_videos_fuzzy [vA, vB] ['a','b'] 1 1 [] [] =
      ⟨[⟨11, 1, MatchTag.metadata⟩], ⟨1, 1, 1, 1⟩, 0⟩ ∧
    search_all_videos_fuzzy [vA, vB] ['a','b'] 2 1 [] [] = ⟨[], ⟨2, 1, 1, 1⟩, 0⟩ := by
  exact ⟨by decide, by decide, by decide⟩

/-- C1 amended: pagination is applied TWICE on the fallback path: the
fuzzy hits are sliced to the requested page first, the timestop extras
are merged with that page and re-sorted, and the merged list is sliced
again; the reported total is the length of the truncated-page-plus-extras
list (at most per_page + #extras, regardless of the number of fuzzy
hits), and total_pages is the ceiling of that reported total divided by
per_page; concretely two fuzzy hits at per_page = 1 report total 1 and an
empty second page. -/
theorem C1_amended :
    (∀ (all : List Video) (search : List Char) (page pp : Int) (ts tr : List Nat),
        search ≠ [] →
        (search_all_videos_fuzzy all search page pp ts tr).pagination.total =
          (fmtPrimary (fuzzy_search_videos all search (mkRat 1 2))
              ((page - 1) * pp) ((page - 1) * pp + pp)).length +
          (timestopExtras all ts tr
              ((fmtPrimary (fuzzy_search_videos all search (mkRat 1 2))
                  ((page - 1) * pp) ((page - 1) * pp + pp)).map (fun r => r.id))).length) ∧
    (∀ (fz : List Hit) (s e : Int), 0 ≤ s → 0 ≤ e →
        (fmtPrimary fz s e).length ≤ (e - s).toNat) ∧
    (∀ (t : Nat) (pp : Int), 0 < pp →
        pp * (Int.fdiv ((t : Int) + pp - 1) pp - 1) < (t : Int) ∧
        (t : Int) ≤ pp * Int.fdiv ((t : Int) + pp - 1) pp) ∧
    ((fuzzy_search_videos [vA, vB] ['a','b'] (mkRat 1 2)).length = 2 ∧
     search_all_videos_fuzzy [vA, vB] ['a','b'] 1 1 [] [] =
       ⟨[⟨11, 1, MatchTag.metadata⟩], ⟨1, 1, 1, 1⟩, 0⟩ ∧
     search_all_videos_fuzzy [vA, vB] ['a','b'] 2 1 [] [] = ⟨[], ⟨2, 1, 1, 1⟩, 0⟩) := by
  refine ⟨?_, ?_, ?_, by decide, by decide, by decide⟩
  · intro all search page pp ts tr h
    rw [search_all_videos_fuzzy, if_neg h]
    dsimp only
    rw [length_pySort, List.length_append]
  · intro fz s e hs he
    rw [fmtPrimary, List.length_map]
    exact length_pySlice_le _ _ _ hs he
  · intro t pp hpp
    rw [Int.fdiv_eq_ediv _ (le_of_lt hpp)]
    have hdm := Int.ediv_add_emod ((t : Int) + pp - 1) pp
    have hr0 := Int.emod_nonneg ((t : Int) + pp - 1) (ne_of_gt hpp)
    have hr1 := Int.emod_lt_of_pos ((t : Int) + pp - 1) hpp
    have hexp : pp * (((t : Int) + pp - 1) / pp - 1) =
        pp * (((t : Int) + pp - 1) / pp) - pp := by ring
    constructor
    · rw [hexp]
      linarith
    · linarith

/-- C8 counterexample: video id 7 is in the loaded collection and is
returned by the transcription search (not the timestop search) for a
query with no primary hits, yet the response is empty: the append loop
iterates only over the timestop id list, so transcription-only ids are
never appended.  With the same id in the timestop list instead, it is
appended with score 0.5 and tag timestop. -/
theorem C8_counterexample :
    search_all_videos_fuzzy [⟨7, ['x','y','z'], [], [], []⟩] ['q'] 1 24 [] [7] =
      ⟨[], ⟨1, 24, 0, 0⟩, 0⟩ ∧
    search_all_videos_fuzzy [⟨7, ['x','y','z'], [], [], []⟩] ['q'] 1 24 [7] [] =
      ⟨[⟨7, mkRat 1 2, MatchTag.timestop⟩], ⟨1, 24, 1, 1⟩, 1⟩ := by
  exact ⟨by decide, by decide⟩

/-- C8 amended: an id is appended iff it comes from the TIMESTOP id list
(transcription-only ids are dropped), is absent from the formatted
primary page, and is present in the loaded collection; every appended
entry carries score 0.5 and tag timestop; and when the timestop id list
has no duplicates (the database query is SELECT DISTINCT) each id is
appended at most once. -/
theorem C8_amended :
    (∀ (all : List Video) (ts tr ids : List Nat) (vid : Nat),
        ((⟨vid, mkRat 1 2, MatchTag.timestop⟩ : RespVideo) ∈ timestopExtras all ts tr ids ↔
          vid ∈ ts ∧ vid ∉ ids ∧ (timestopLookup all (ts ++ tr) vid).isSome = true)) ∧
    (∀ (all : List Video) (ts tr ids : List Nat) (e : RespVideo),
        e ∈ timestopExtras all ts tr ids →
        e.score = mkRat 1 2 ∧ e.tag = MatchTag.timestop ∧ e.id ∈ ts ∧ e.id ∉ ids) ∧
    (∀ (all : List Video) (ts tr ids : List Nat), ts.Nodup →
        ((timestopExtras all ts tr ids).map (fun e => e.id)).Nodup) ∧
    search_all_videos_fuzzy [⟨7, ['x','y','z'], [], [], []⟩] ['q'] 1 24 [] [7] =
      ⟨[], ⟨1, 24, 0, 0⟩, 0⟩ := by
  exact ⟨mem_timestopExtras, timestopExtras_shape, timestopExtras_ids_nodup, by decide⟩

/-- C2 counterexample: on a video titled "abcx abcx abcx" the query
"abcd zzzz" produces a hit of match type part_match with score 21/40 =
0.525, strictly above the claimed 0.35 bound: the stage counts matching
(query word, title word) PAIRS, and the single query word "abcd" matches
all three title words, so the "fraction" is (3+0)/2 and the score is
3/2 × 0.35. -/
theorem C2_counterexample :
    fuzzy_search_videos [abcxVideo] ['a','b','c','d',' ','z','z','z','z'] =
      [⟨abcxVideo, mkRat 21 40, some MatchType.part_match⟩] ∧
    mkRat 35 100 < mkRat 21 40 := by
  have h1 : fuzzy_search_videos [abcxVideo] ['a','b','c','d',' ','z','z','z','z'] =
      [⟨abcxVideo, mkRat 21 40, some MatchType.part_match⟩] := by decide
  exact ⟨h1, by decide⟩

/-- C2 amended: the partial-fallback stage fires only while the running
score is below 0.4 and there are query words; when it fires on a
positive pair count its score is
max(running, (titlePairs + descPairs) / #queryWords × 0.35) where the
pair counts tally every matching (query word, title/description word)
pair — NOT the fraction of matched query tokens — so the factor can
exceed 1 and the 0.35 bound only holds when the pair count is at most
the number of query words; on the concrete counterexample the pair
count is 3 for 2 query words, giving score 21/40 > 0.35. -/
theorem C2_amended :
    (∀ (sws : List (List Char)) (titleL descL : List Char) (cur : ℚ × Option MatchType),
        cur.1 < mkRat 4 10 → sws ≠ [] →
        0 < titlePairs sws titleL + descPairs sws descL →
        partWordStage sws titleL descL cur =
          (max cur.1 (mkRat (titlePairs sws titleL + descPairs sws descL) 1 /
              mkRat sws.length 1 * mkRat 35 100),
           some MatchType.part_match)) ∧
    (∀ (sws : List (List Char)) (titleL descL : List Char) (cur : ℚ × Option MatchType),
        mkRat 4 10 ≤ cur.1 → partWordStage sws titleL descL cur = cur) ∧
    (∀ (sws : List (List Char)) (titleL descL : List Char),
        sws ≠ [] →
        titlePairs sws titleL + descPairs sws descL ≤ sws.length →
        mkRat (titlePairs sws titleL + descPairs sws descL) 1 /
            mkRat sws.length 1 * mkRat 35 100 ≤ mkRat 35 100) ∧
    titlePairs [['a','b','c','d'], ['z','z','z','z']] (lowerL abcxVideo.title) = 3 ∧
    fuzzy_search_videos [abcxVideo] ['a','b','c','d',' ','z','z','z','z'] =
      [⟨abcxVideo, mkRat 21 40, some MatchType.part_match⟩] := by
  have hconc : fuzzy_search_videos [abcxVideo] ['a','b','c','d',' ','z','z','z','z'] =
      [⟨abcxVideo, mkRat 21 40, some MatchType.part_match⟩] := by decide
  refine ⟨?_, ?_, ?_, by decide, hconc⟩
  · intro sws titleL descL cur h1 h2 h3
    rw [partWordStage, if_pos ⟨h1, h2⟩, if_pos h3, qMax_eq, qDiv_eq, qMul_eq]
  · intro sws titleL descL cur h
    rw [partWordStage, if_neg (fun hc => absurd hc.1 (not_lt.mpr h))]
  · intro sws titleL descL h2 hle
    have hlen : 0 < sws.length := List.length_pos.mpr h2
    have hdiv : (mkRat (titlePairs sws titleL + descPairs sws descL) 1 /
        mkRat sws.length 1 : ℚ) ≤ 1 := by
      rw [mkRat_as_div, mkRat_as_div]
      push_cast
      rw [div_one, div_one]
      exact (div_le_one (by exact_mod_cast hlen)).mpr (by exact_mod_cast hle)
    exact mul_le_of_le_one_left (by decide) hdiv

set_option maxRecDepth 4000 in
/-- C3 counterexample: on the video titled "Pediatric Cardiology Basics"
the typo query "Cardiologie" produces the hit (57/70, phrase_title): the
score is strictly below 1 as claimed, but the match type is phrase_title,
which is neither fuzzy_title nor fuzzy_word_title (stage 2 fires because
the single query word fuzzily matches the title word "cardiology"). -/
theorem C3_counterexample :
    fuzzy_search_videos [pedVideo] ['C','a','r','d','i','o','l','o','g','i','e'] =
      [⟨pedVideo, mkRat 57 70, some MatchType.phrase_title⟩] ∧
    mkRat 57 70 < (1 : ℚ) ∧
    MatchType.phrase_title ≠ MatchType.fuzzy_title ∧
    MatchType.phrase_title ≠ MatchType.fuzzy_word_title := by
  have h1 : fuzzy_search_videos [pedVideo] ['C','a','r','d','i','o','l','o','g','i','e'] =
      [⟨pedVideo, mkRat 57 70, some MatchType.phrase_title⟩] := by decide
  exact ⟨h1, by decide, by decide, by decide⟩

set_option maxRecDepth 4000 in
/-- C3 amended: query "Cardiology" on the "Pediatric Cardiology Basics"
video scores (1.0, exact_title); the typo query "Cardiologie" scores
strictly below 1.0 but with match type phrase_title (not fuzzy_title or
fuzzy_word_title).  In general an exact lower-cased substring match
short-circuits the per-video scoring at (1.0, exact_title), such a video
appears in the engine output with that hit, and any hit whose match type
is fuzzy_title or fuzzy_word_title has score at most 0.85 < 1, so an
exact-substring hit outranks every fuzzy-only hit. -/
theorem C3_amended :
    (fuzzy_search_videos [pedVideo] ['C','a','r','d','i','o','l','o','g','y'] =
      [⟨pedVideo, 1, some MatchType.exact_title⟩]) ∧
    (fuzzy_search_videos [pedVideo] ['C','a','r','d','i','o','l','o','g','i','e'] =
      [⟨pedVideo, mkRat 57 70, some MatchType.phrase_title⟩]) ∧
    (∀ (thr : ℚ) (searchL : List Char) (sws : List (List Char)) (v : Video),
        pyIn searchL (lowerL v.title) = true →
        scoreVideo thr searchL sws v = (1, some MatchType.exact_title)) ∧
    (∀ (videos : List Video) (q : List Char) (v : Video), v ∈ videos →
        pyIn (stripL (lowerL q)) (lowerL v.title) = true →
        (⟨v, 1, some MatchType.exact_title⟩ : Hit) ∈ fuzzy_search_videos videos q) ∧
    (∀ (thr : ℚ) (searchL : List Char) (sws : List (List Char)) (titleL : List Char),
        ((titleStage thr searchL sws titleL).2 = some MatchType.fuzzy_title ∨
         (titleStage thr searchL sws titleL).2 = some MatchType.fuzzy_word_title) →
        (titleStage thr searchL sws titleL).1 ≤ mkRat 85 100) ∧
    (mkRat 85 100 : ℚ) < 1 := by
  have h1 : fuzzy_search_videos [pedVideo] ['C','a','r','d','i','o','l','o','g','y'] =
      [⟨pedVideo, 1, some MatchType.exact_title⟩] := by decide
  have h2 : fuzzy_search_videos [pedVideo] ['C','a','r','d','i','o','l','o','g','i','e'] =
      [⟨pedVideo, mkRat 57 70, some MatchType.phrase_title⟩] := by decide
  refine ⟨h1, h2, scoreVideo_exact, ?_, titleStage_fuzzy_le, by decide⟩
  intro videos q v hv hsub
  simp only [fuzzy_search_videos]
  rw [mem_pySort, List.mem_filterMap]
  refine ⟨v, hv, ?_⟩
  rw [scoreVideo_exact _ _ _ _ hsub]
  rfl

/-- C4 counterexample: calling the local engine with the empty query on a
one-video collection returns that video as a hit of score 1 and match
type exact_title — not zero results: the engine has no empty-query guard,
and the empty string is a Python substring of every title. -/
theorem C4_counterexample :
    fuzzy_search_videos [pedVideo] [] = [⟨pedVideo, 1, some MatchType.exact_title⟩] ∧
    fuzzy_search_videos [pedVideo] [] ≠ [] := by
  constructor
  · decide
  · decide

/-- C4 amended: the `/api/search` endpoint does guard the empty query and
returns an empty result set with total 0, but the local engine
`fuzzy_search_videos(videos, "")` returns EVERY video of the collection as
a hit of score 1 and match type exact_title (sorted by the tie-breaking
`created_at` key), so its result has the length of the collection and in
particular is non-empty whenever the collection is. -/
theorem C4_amended :
    (∀ (all_videos : List Video) (page per_page : Int) (ts tr : List Nat),
        search_all_videos_fuzzy all_videos [] page per_page ts tr =
          ⟨[], ⟨1, per_page, 0, 0⟩, 0⟩) ∧
    (∀ videos : List Video,
        fuzzy_search_videos videos [] =
          pySort hitKeyGt (videos.map (fun v => ⟨v, 1, some MatchType.exact_title⟩))) ∧
    (∀ videos : List Video, (fuzzy_search_videos videos []).length = videos.length) ∧
    (∀ (videos : List Video) (v : Video), v ∈ videos →
        (⟨v, 1, some MatchType.exact_title⟩ : Hit) ∈ fuzzy_search_videos videos []) := by
  refine ⟨fun _ _ _ _ _ => rfl, fuzzy_search_empty_query, ?_, ?_⟩
  · intro videos
    rw [fuzzy_search_empty_query, length_pySort, List.length_map]
  · intro videos v hv
    rw [fuzzy_search_empty_query, mem_pySort]
    exact List.mem_map_of_mem _ hv

/-- C5 counterexample: in `match_videos` the similarity between the
YouTube record and the only AWS record is 1, strictly above the 0.85
threshold, yet the record is reported unmatched (the AWS record's
`space_name` is empty), refuting "matched if and only if the maximum
similarity strictly exceeds 0.85". -/
theorem C5_counterexample :
    mkRat 85 100 <
      similarity_score (normalize_title ytVid.title) (normalize_title awsEmptySpace.title) ∧
    match_videos [ytVid] [awsEmptySpace] = ([], [ytVid]) := by
  constructor
  · decide
  · decide

/-- C5 amended: in `find_unmatched_aws_videos` a secondary record is
unmatched iff no primary record's normalized title is strictly more
than 0.85 similar, exactly as claimed.  In `match_videos` a record is
unmatched iff it is NOT the case that both (a) some candidate strictly
exceeds the 0.85 threshold (equivalently, a best candidate is retained)
and (b) the retained best candidate's `space_name` is non-empty — the
extra condition (b) is absent from the claim.  With an empty primary
collection every secondary record is unmatched and the matches map is
empty; with an empty secondary collection the matches map is empty. -/
theorem C5_amended :
    (∀ (aws yt : List Video) (a : Video),
        a ∈ find_unmatched_aws_videos aws yt ↔
          a ∈ aws ∧ ¬ ∃ y ∈ yt, mkRat 85 100 <
            similarity_score (normalize_title a.title) (normalize_title y.title)) ∧
    (∀ (yt aws : List Video) (y : Video),
        y ∈ (match_videos yt aws).2 ↔ y ∈ yt ∧
          ¬ ((bestAws (normalize_title y.title) aws).1.isSome = true ∧
             (bestAws (normalize_title y.title) aws).2.2 ≠ [])) ∧
    (∀ (ytn : List Char) (aws : List Video),
        ((bestAws ytn aws).1.isSome = true ↔
          ∃ a ∈ aws, mkRat 85 100 < similarity_score ytn (normalize_title a.title))) ∧
    (∀ yt : List Video, match_videos yt [] = ([], yt)) ∧
    (∀ aws : List Video, match_videos [] aws = ([], [])) := by
  refine ⟨?_, ?_, bestAws_isSome_iff, match_videos_nil_primary, fun aws => rfl⟩
  · intro aws yt a
    rw [find_unmatched_filter, List.mem_filter]
    simp only [Bool.not_eq_eq_eq_not, Bool.not_true, List.any_eq_false,
      decide_eq_true_eq, not_exists, not_and]
  · intro yt aws y
    rw [match_videos_unmatched, List.mem_filter]
    simp only [matchedOkB, Bool.not_eq_eq_eq_not, Bool.not_true, Bool.and_eq_false_iff]
    constructor
    · rintro ⟨hy, h⟩
      refine ⟨hy, ?_⟩
      rintro ⟨h1, h2⟩
      rcases h with h | h
      · rw [h1] at h; cases h
      · rw [decide_eq_false_iff_not] at h
        exact h h2
    · rintro ⟨hy, h⟩
      refine ⟨hy, ?_⟩
      by_cases h1 : (bestAws (normalize_title y.title) aws).1.isSome = true
      · right
        rw [decide_eq_false_iff_not]
        intro h2
        exact h ⟨h1, h2⟩
      · left
        exact Bool.not_eq_true _ ▸ (Bool.eq_false_iff.mpr (fun hc => h1 hc))

/-- C10: in `match_videos`, when the retained best candidate for a
record carries an empty `space_name` the record is unmatched: it lands
in the unmatched list and its content id is absent from the matches
map; concretely, the YouTube fixture matches the non-empty-space AWS
record alone, but adding a strictly higher-scoring empty-space record
displaces it and leaves the fixture unmatched, even though both
candidates are strictly above the 0.85 threshold. -/
theorem C10_empty_space_best_unmatched :
    (∀ (yt aws : List Video) (y : Video), y ∈ yt →
        (bestAws (normalize_title y.title) aws).2.2 = [] →
        y ∈ (match_videos yt aws).2) ∧
    (∀ (yt aws : List Video) (k : Nat),
        (∀ z ∈ yt, z.content_id = k →
          (bestAws (normalize_title z.title) aws).2.2 = []) →
        ¬ ∃ e, (k, e) ∈ (match_videos yt aws).1) ∧
    ((match_videos [ytVid] [awsXSpace]).2 = [] ∧
     match_videos [ytVid] [awsXSpace, awsEmptySpace] = ([], [ytVid]) ∧
     mkRat 85 100 <
       similarity_score (normalize_title ytVid.title) (normalize_title awsXSpace.title) ∧
     similarity_score (normalize_title ytVid.title) (normalize_title awsXSpace.title) <
       similarity_score (normalize_title ytVid.title) (normalize_title awsEmptySpace.title) ∧
     awsEmptySpace.space_name = [] ∧ awsXSpace.space_name ≠ []) := by
  refine ⟨?_, ?_, by decide, by decide, by decide, by decide, by decide, by decide⟩
  · intro yt aws y hy hsp
    have hm : matchedOkB aws y = false := by
      rw [matchedOkB, hsp]
      simp
    rw [match_videos_unmatched, List.mem_filter]
    exact ⟨hy, by rw [hm]; rfl⟩
  · intro yt aws k hall hex
    rw [match_videos_keys] at hex
    obtain ⟨z, hz, hid, hmz⟩ := hex
    have hsp := hall z hz hid
    rw [matchedOkB, hsp] at hmz
    simp at hmz

end VideoLib
